import Mathlib

/-!
Verification of the fi-cli terminal agent core: shell-tool validation
(tokenizer, allowlist, destructive-pattern denylist, environment handling),
redaction/truncation utilities, and the orchestration loop.

Strings are modelled as Lean `String`/`List Char`; Go iterates strings by
rune, which corresponds to `String.data`.
-/

/-! ## Go string primitives (strings.TrimSpace, strings.ToLower, strings.Contains) -/

/-- Go `unicode.IsSpace` restricted to the code points relevant here
(the full Go table also has exotic Unicode spaces such as U+2000..). -/
def goIsSpace (c : Char) : Bool :=
  c = ' ' || c = '\t' || c = '\n' || c = '\x0b' || c = '\x0c' || c = '\r' ||
  c = '\u0085' || c = '\u00A0'

/-- Go `strings.TrimSpace`. -/
def trimSpace (s : String) : String :=
  String.mk (((s.data.dropWhile goIsSpace).reverse.dropWhile goIsSpace).reverse)

/-- Go `strings.ToLower` (simple per-rune case mapping). -/
def lowerStr (s : String) : String :=
  String.mk (s.data.map Char.toLower)

/-- Substring search on rune lists: does `pat` occur inside `l`? -/
def containsChars (pat : List Char) : List Char → Bool
  | [] => pat.isPrefixOf []
  | c :: cs => pat.isPrefixOf (c :: cs) || containsChars pat cs

/-- Go `strings.Contains s pat`. -/
def containsStr (s pat : String) : Bool :=
  containsChars pat.data s.data

/-! ## Command tokenizer (shell.go `splitCommand`) -/

structure SplitState where
  args : List String
  buf : List Char
  inSingle : Bool
  inDouble : Bool
  escape : Bool
deriving Repr, DecidableEq

def initSplitState : SplitState := ⟨[], [], false, false, false⟩

/-- One step of the rune loop of `splitCommand`. -/
def splitStep (st : SplitState) (r : Char) : SplitState :=
  if st.escape then { st with buf := st.buf ++ [r], escape := false }
  else if r = '\\' ∧ st.inSingle = false then { st with escape := true }
  else if r = '\'' ∧ st.inDouble = false then { st with inSingle := !st.inSingle }
  else if r = '"' ∧ st.inSingle = false then { st with inDouble := !st.inDouble }
  else if (r = ' ' ∨ r = '\t' ∨ r = '\n') ∧ st.inSingle = false ∧ st.inDouble = false then
    if st.buf.length > 0 then { st with args := st.args ++ [String.mk st.buf], buf := [] }
    else st
  else { st with buf := st.buf ++ [r] }

/-- shell.go `splitCommand`: split a command string into words with
shell-like quoting rules. -/
def splitCommand (input : String) : Except String (List String) :=
  let st := input.data.foldl splitStep initSplitState
  if st.escape ∨ st.inSingle ∨ st.inDouble then
    .error "unterminated quote or escape in command"
  else if st.buf.length > 0 then .ok (st.args ++ [String.mk st.buf])
  else .ok st.args

/-! ## Allowlist (shell.go `normalizeAllowlist`, `allowed`) -/

/-- Body of the `normalizeAllowlist` loop for one configured item:
`none` means the item is silently dropped. -/
def normalizeEntry (item : String) : Option (List String) :=
  let trimmed := trimSpace item
  if trimmed = "" then none
  else
    match splitCommand trimmed with
    | .error _ => none
    | .ok tokens => if tokens = [] then none else some (tokens.map lowerStr)

/-- shell.go `normalizeAllowlist`. -/
def normalizeAllowlist (list : List String) : List (List String) :=
  list.filterMap normalizeEntry

/-- The positional-equality loop inside `allowed` for one entry
(Go also skips entries longer than the command, which is the `_ :: _, []`
case here). -/
def entryMatchesAux : List String → List String → Bool
  | [], _ => true
  | _ :: _, [] => false
  | e :: es, n :: ns => e = n && entryMatchesAux es ns

/-- shell.go `ShellTool.allowed`. -/
def allowed (allowlist : List (List String)) (cmdParts : List String) : Bool :=
  if allowlist = [] ∨ cmdParts = [] then false
  else
    let normalized := cmdParts.map lowerStr
    allowlist.any (fun entry => entryMatchesAux entry normalized)

/-! ## Destructive patterns (shell.go `destructivePatterns`)

Each Go regexp is translated to an executable matcher.  `\b` is the RE2
word boundary with word characters `[0-9A-Za-z_]`; `\s` is RE2 `[\t\n\f\r ]`;
`(?i)` is case-insensitivity, realised by comparing lowered runes against
lowercase pattern text. -/

def isWordChar (c : Char) : Bool := c.isAlpha || c.isDigit || c = '_'

/-- RE2 `\s` (note: unlike Go `unicode.IsSpace`, no `\v` and no Unicode spaces). -/
def reIsSpace (c : Char) : Bool :=
  c = ' ' || c = '\t' || c = '\n' || c = '\x0c' || c = '\r'

/-- Case-insensitive "text starts with pattern" on rune lists. -/
def startsWithCI : List Char → List Char → Bool
  | [], _ => true
  | _ :: _, [] => false
  | p :: ps, c :: cs => p.toLower = c.toLower && startsWithCI ps cs

/-- `\b` holds before the current position: no previous rune, or the
previous rune is not a word character. -/
def boundaryBefore : Option Char → Bool
  | none => true
  | some p => !isWordChar p

/-- `\b` holds right after a match ending where `l` begins. -/
def boundaryAfter : List Char → Bool
  | [] => true
  | d :: _ => !isWordChar d

/-- Try every position of the text, tracking the previous rune, and ask
`p prev suffix` whether an anchored match starts there (no pattern here can
match the empty string, so the end-of-text position is irrelevant). -/
def scanPos (p : Option Char → List Char → Bool) : Option Char → List Char → Bool
  | _, [] => false
  | prev, c :: cs => p prev (c :: cs) || scanPos p (some c) cs

/-- Anchored `(?i)\b<w>\b` for an alphanumeric word `w` (given lowercase). -/
def wordAt (w : List Char) (prev : Option Char) (l : List Char) : Bool :=
  boundaryBefore prev && startsWithCI w l && boundaryAfter (l.drop w.length)

/-- `(?i)\b<w>\b` somewhere in `s`. -/
def containsWordCI (w : String) (s : String) : Bool :=
  scanPos (wordAt w.data) none s.data

/-- `\s+` then the rest: `none` when no leading RE2 space. -/
def wsPlus : List Char → Option (List Char)
  | [] => none
  | c :: cs => if reIsSpace c then some ((c :: cs).dropWhile reIsSpace) else none

/-- Anchored `(?i)\bkill\s+-9\b`. -/
def killAt (prev : Option Char) (l : List Char) : Bool :=
  boundaryBefore prev && startsWithCI ['k', 'i', 'l', 'l'] l &&
    (match wsPlus (l.drop 4) with
     | none => false
     | some r =>
       match r with
       | '-' :: '9' :: rest => boundaryAfter rest
       | _ => false)

/-- Anchored `(?i)chmod\s+-R\s+777\s+/`. -/
def chmodAt (_prev : Option Char) (l : List Char) : Bool :=
  startsWithCI ['c', 'h', 'm', 'o', 'd'] l &&
    (match wsPlus (l.drop 5) with
     | none => false
     | some r =>
       match r with
       | '-' :: c :: rest =>
         c.toLower = 'r' &&
           (match wsPlus rest with
            | none => false
            | some r2 =>
              startsWithCI ['7', '7', '7'] r2 &&
                (match wsPlus (r2.drop 3) with
                 | none => false
                 | some r3 =>
                   match r3 with
                   | '/' :: _ => true
                   | _ => false))
       | _ => false)

def sysDirs : List (List Char) :=
  ["/etc".data, "/bin".data, "/usr".data, "/var".data, "/lib".data,
   "/sbin".data, "/system".data, "/library".data]

/-- `[\s]*` then one of the system directories, case-insensitively. -/
def dirAfterWs (l : List Char) : Bool :=
  sysDirs.any (fun d => startsWithCI d (l.dropWhile reIsSpace))

/-- Anchored `(?i)(>|>>)[\s]*(/etc|/bin|/usr|/var|/lib|/sbin|/System|/Library)`. -/
def redirAt (_prev : Option Char) (l : List Char) : Bool :=
  match l with
  | '>' :: rest =>
    dirAfterWs rest ||
      (match rest with
       | '>' :: rest2 => dirAfterWs rest2
       | _ => false)
  | _ => false

/-- shell.go: `destructivePatterns` — true when any of the nine compiled
regexps matches the raw command string. -/
def destructiveMatch (cmd : String) : Bool :=
  containsWordCI "rm" cmd || containsWordCI "mkfs" cmd || containsWordCI "dd" cmd ||
  containsWordCI "shutdown" cmd || containsWordCI "reboot" cmd ||
  scanPos killAt none cmd.data || containsStr cmd ":()\x7b" ||
  scanPos chmodAt none cmd.data || scanPos redirAt none cmd.data

/-! ## Shell tool validation pipeline (shell.go `ShellTool.Execute`, up to
process launch) -/

def interactiveSet : List String :=
  ["vim", "vi", "nano", "less", "more", "man", "top", "htop", "ssh", "sftp"]

def networkToolsSet : List String :=
  ["curl", "wget", "ssh", "scp", "nc", "netcat"]

/-- The validation pipeline of `ShellTool.Execute`: everything before the
child process is spawned.  `.ok parts` means execution proceeds with argv
`parts`; `.error e` is the rejection returned to the caller. -/
def executeGuard (allowlist : List (List String)) (unsafeShell : Bool)
    (command : String) : Except String (List String) :=
  if trimSpace command = "" then .error "command is required"
  else
    match splitCommand command with
    | .error e => .error e
    | .ok cmdParts =>
      match cmdParts with
      | [] => .error "command is required"
      | cmdName :: _ =>
        let cmdKey := lowerStr cmdName
        if interactiveSet.contains cmdKey then
          .error ("interactive commands are not allowed: " ++ cmdName)
        else if unsafeShell = false then
          if allowlist = [] then .error "shell allowlist is empty"
          else if allowed allowlist cmdParts = false then
            .error ("command not allowlisted: " ++ cmdName)
          else if networkToolsSet.contains cmdKey then
            .error ("network commands are blocked by default: " ++ cmdName)
          else if destructiveMatch command then
            .error "blocked potentially destructive command"
          else .ok cmdParts
        else .ok cmdParts

/-! ## Child-process environment (shell.go `minimalEnv` and Go `os/exec`) -/

/-- shell.go `minimalEnv`: both the windows branch and the default branch
return the nil slice, modelled as `none`. -/
def minimalEnv (goosWindows : Bool) : Option (List String) :=
  if goosWindows then none else none

/-- Documented Go `os/exec` semantics for `Cmd.Env`: if `Env` is nil, the
new process uses the current (parent) process's environment; otherwise it
uses exactly the given entries. -/
def effectiveChildEnv (parentEnv : List String) (cmdEnv : Option (List String)) :
    List String :=
  match cmdEnv with
  | none => parentEnv
  | some env => env

/-! ## Truncation (util/truncate.go `TruncateLinesAndBytes`)

Go `len(line)` is the UTF-8 byte length.  Limits are Go `int`s, modelled
as `Int` (`<= 0` disables a limit). -/

/-- Go `len(s)`: the UTF-8 byte length of a string. -/
def byteLen (s : String) : Nat :=
  s.data.foldl (fun n c => n + c.utf8Size) 0

/-- Go `strings.Join(lines, "\n")`. -/
def goJoin : List String → String
  | [] => ""
  | [x] => x
  | x :: y :: xs => x ++ "\n" ++ goJoin (y :: xs)

/-- `len(strings.Join(lines, "\n"))`. -/
def joinLen (lines : List String) : Nat :=
  byteLen (goJoin lines)

/-- The loop of `TruncateLinesAndBytes`, with the accumulated output and
byte count made explicit. -/
def truncLoop (maxLines maxBytes : Int) :
    List String → List String → Nat → List String × Bool × Nat
  | [], out, bc => (out, false, bc)
  | line :: rest, out, bc =>
    if 0 < maxLines ∧ maxLines ≤ (out.length : Int) then (out, true, bc)
    else if 0 < maxBytes ∧ maxBytes <
        ((bc + (if out.length > 0 then 1 else 0) + byteLen line : Nat) : Int) then
      (out, true, bc)
    else
      truncLoop maxLines maxBytes rest (out ++ [line])
        (bc + (if out.length > 0 then 1 else 0) + byteLen line)

/-- util/truncate.go `TruncateLinesAndBytes`. -/
def TruncateLinesAndBytes (lines : List String) (maxLines maxBytes : Int) :
    List String × Bool × Nat :=
  if maxLines ≤ 0 ∧ maxBytes ≤ 0 then (lines, false, joinLen lines)
  else truncLoop maxLines maxBytes lines [] 0

/-! ## Plan parsing (agent/prompts.go `parsePlan`, `Agent.generatePlan`) -/

/-- The three items appended by `parsePlan` when fewer than 3 usable lines
were parsed. -/
def fallbackParsedPlan : List String :=
  ["Review repository context", "Run targeted tool calls", "Produce cited answer"]

/-- The fixed plan used by `generatePlan` when the planning request fails. -/
def fallbackRequestPlan : List String :=
  ["Review repository context", "Run focused searches", "Summarize evidence with citations"]

/-- Per-line cleanup: `TrimSpace`, `TrimLeft "-*"`, `TrimSpace`. -/
def planLineClean (line : String) : String :=
  trimSpace (String.mk ((trimSpace line).data.dropWhile (fun c => c = '-' || c = '*')))

/-- Go `strings.Split(text, "\n")` on rune lists: `""` yields `[""]`, a
trailing separator yields a trailing empty field. -/
def splitLines : List Char → List (List Char)
  | [] => [[]]
  | c :: cs =>
    if c = '\n' then [] :: splitLines cs
    else
      match splitLines cs with
      | [] => [[c]]
      | w :: ws => (c :: w) :: ws

/-- Loop body of `parsePlan`: drop blank lines, cap at 8 items. -/
def planStep (plan : List String) (line : String) : List String :=
  if planLineClean line = "" then plan
  else if plan.length < 8 then plan ++ [planLineClean line] else plan

/-- `parsePlan` before the final under-3 fallback. -/
def parsePlanRaw (text : String) : List String :=
  ((splitLines text.data).map String.mk).foldl planStep []

/-- agent/prompts.go `parsePlan`. -/
def parsePlan (text : String) : List String :=
  let plan := parsePlanRaw text
  if plan.length < 3 then plan ++ fallbackParsedPlan else plan

/-- agent/prompts.go `Agent.generatePlan`, with the model request's result
passed in: `.error` is a failed `client.Create`, `.ok content` its response. -/
def generatePlan (resp : Except String String) : List String :=
  match resp with
  | .error _ => fallbackRequestPlan
  | .ok content => parsePlan content

/-! ## Orchestration loop (agent/prompts.go `Agent.Run`)

The model transport is a function from the message history to either a
transport error or a response; the streaming transport likewise returns the
accumulated streamed text.  Tool payloads are opaque strings (the Go code
JSON-marshals them). -/

structure ToolCall where
  id : String
  name : String
  args : String
deriving Repr, DecidableEq

inductive Msg where
  | system (content : String)
  | developer (content : String)
  | user (content : String)
  | assistantCalls (calls : List ToolCall)
  | toolResult (content : String) (callId : String)
deriving Repr, DecidableEq

structure ModelResp where
  content : String
  toolCalls : List ToolCall
deriving Repr, DecidableEq

structure RunOutcome where
  status : String
  finalAnswer : String
  stepsUsed : Nat
deriving Repr, DecidableEq

/-- The `{"error": ...}` payload marshalled for failed or unknown tool calls. -/
def errorPayload (e : String) : String :=
  "\x7b\"error\":\"" ++ e ++ "\"\x7d"

/-- Body of the per-call loop in `Agent.Run`: each requested call yields
exactly one tool-result message — unknown tool, failed execution and
successful execution alike. -/
def processCall (registry : List (String × (String → Except String String)))
    (call : ToolCall) : Msg :=
  match registry.lookup call.name with
  | none => Msg.toolResult (errorPayload ("unknown tool: " ++ call.name)) call.id
  | some exec =>
    match exec call.args with
    | .error e => Msg.toolResult (errorPayload e) call.id
    | .ok payload => Msg.toolResult payload call.id

/-- The tool-result messages appended after one assistant turn. -/
def toolResponseMsgs (registry : List (String × (String → Except String String)))
    (calls : List ToolCall) : List Msg :=
  calls.map (processCall registry)

def maxStepsWarning : String :=
  "Max steps reached. Provide the best possible partial answer and include a warning."

/-- The streamed-final-answer selection: outside JSON mode, a successful
stream with non-blank text supersedes the fallback. -/
def pickStreamed (jsonMode : Bool) (streamRes : Except String String)
    (fallback : String) : String :=
  if jsonMode then fallback
  else
    match streamRes with
    | .error _ => fallback
    | .ok s => if trimSpace s = "" then fallback else s

/-- The step loop of `Agent.Run` (from the first `Create` call on), with the
remaining step budget as fuel and the running step counter made explicit.
Returns the run outcome and the error returned to the caller (`none` = nil). -/
def runSteps (client : List Msg → Except String ModelResp)
    (registry : List (String × (String → Except String String)))
    (jsonMode : Bool) (streamF : List Msg → Except String String) :
    Nat → List Msg → Nat → RunOutcome × Option String
  | 0, messages, steps =>
    let messages2 := messages ++ [Msg.developer maxStepsWarning]
    let fa0 := "Max steps reached; unable to complete."
    let fa1 := pickStreamed jsonMode (streamF messages2) fa0
    let fa2 :=
      if containsStr (lowerStr fa1) "max steps" = false then "Max steps reached. " ++ fa1
      else fa1
    (⟨"partial", trimSpace fa2, steps⟩, some "max steps reached")
  | fuel + 1, messages, steps =>
    match client messages with
    | .error e => (⟨"failure", "", steps + 1⟩, some e)
    | .ok resp =>
      if resp.toolCalls = [] then
        let fa := pickStreamed jsonMode (streamF messages) (trimSpace resp.content)
        (⟨"success", trimSpace fa, steps + 1⟩, none)
      else
        runSteps client registry jsonMode streamF fuel
          (messages ++ [Msg.assistantCalls resp.toolCalls] ++
            toolResponseMsgs registry resp.toolCalls)
          (steps + 1)

/-- `Agent.Run`'s loop started with a fresh step counter and the
configured `MaxSteps` budget. -/
def runAgent (client : List Msg → Except String ModelResp)
    (registry : List (String × (String → Except String String)))
    (jsonMode : Bool) (streamF : List Msg → Except String String)
    (maxSteps : Nat) (initMsgs : List Msg) : RunOutcome × Option String :=
  runSteps client registry jsonMode streamF maxSteps initMsgs 0

/-! ## Redaction (util `RedactSecrets`)

Each Go `Regexp.ReplaceAllString` is an executable scanner: at every
position the anchored pattern is tried; the leftmost match is replaced and
scanning resumes after the matched text.  For each of the four patterns the
anchored match is deterministic (greedy runs are maximal class runs, the
lazy `.*?` is the earliest END header), so an anchored matcher returning
the replacement text and the matched length embeds the regexp exactly. -/

/-- Generic leftmost, non-overlapping replace-all driven by an anchored
matcher `tryM` returning `(replacementText, matchedLength)`.  Every matcher
used here consumes at least one rune; `max n 1` makes that manifest for
termination. -/
def replaceAll (tryM : List Char → Option (List Char × Nat)) : List Char → List Char
  | [] => []
  | c :: cs =>
    match tryM (c :: cs) with
    | none => c :: replaceAll tryM cs
    | some (repl, n) => repl ++ replaceAll tryM (List.drop (max n 1) (c :: cs))
termination_by l => l.length
decreasing_by
  all_goals simp [List.length_drop]

/-- The keyword alternation of `keyValuePattern`, in source order (at any
position at most one keyword can match, as no keyword is a prefix of
another up to case). -/
def kvKeywords : List (List Char) :=
  ["api_key".data, "apikey".data, "secret".data, "token".data, "password".data,
   "access_key".data, "private_key".data]

def findKw : List (List Char) → List Char → Option (List Char)
  | [], _ => none
  | k :: ks, l => if startsWithCI k l then some k else findKw ks l

/-- The value class `[^\s"']`. -/
def kvValueChar (c : Char) : Bool :=
  !reIsSpace c && c ≠ '"' && c ≠ '\''

/-- Anchored `(?i)(api_key|apikey|secret|token|password|access_key|private_key)
\s*[:=]\s*([^\s"']+)` with its replacement `$1=[REDACTED]` ($1 keeps the
matched keyword's original case). -/
def tryKV (l : List Char) : Option (List Char × Nat) :=
  match findKw kvKeywords l with
  | none => none
  | some k =>
    let kwText := l.take k.length
    let rest1 := l.drop k.length
    let ws1 := rest1.takeWhile reIsSpace
    let rest2 := rest1.drop ws1.length
    match rest2 with
    | c :: rest3 =>
      if c = ':' ∨ c = '=' then
        let ws2 := rest3.takeWhile reIsSpace
        let rest4 := rest3.drop ws2.length
        let value := rest4.takeWhile kvValueChar
        if value.length > 0 then
          some (kwText ++ "=[REDACTED]".data,
                k.length + ws1.length + 1 + ws2.length + value.length)
        else none
      else none
    | [] => none

/-- The class `[A-Z ]` under `(?i)`: ASCII letters of either case and space. -/
def pkRunChar (c : Char) : Bool := c.isAlpha || c = ' '

/-- Anchored `[A-Z ]*PRIVATE KEY-----` under `(?i)`: the maximal class run
must end in `PRIVATE KEY` (`-----` cannot occur inside the run, so the
split is unique); returns the consumed length. -/
def pkHeaderTail (l : List Char) : Option Nat :=
  let run := l.takeWhile pkRunChar
  if 11 ≤ run.length ∧
      (run.drop (run.length - 11)).map Char.toLower = "private key".data ∧
      startsWithCI "-----".data (l.drop run.length) then
    some (run.length + 5)
  else none

/-- Anchored `-----END [A-Z ]*PRIVATE KEY-----` under `(?i)`. -/
def tryEndHeader (l : List Char) : Option Nat :=
  if startsWithCI "-----end ".data l then
    match pkHeaderTail (l.drop 9) with
    | some n => some (9 + n)
    | none => none
  else none

/-- Earliest position (and consumed length there) where the END header
matches — the lazy `.*?` of `privateKeyBlock` under `(?s)`. -/
def findEnd : List Char → Option (Nat × Nat)
  | [] => none
  | c :: cs =>
    match tryEndHeader (c :: cs) with
    | some n => some (0, n)
    | none =>
      match findEnd cs with
      | some (j, n) => some (j + 1, n)
      | none => none

/-- Anchored `(?is)-----BEGIN [A-Z ]*PRIVATE KEY-----.*?-----END [A-Z ]*
PRIVATE KEY-----` with replacement `[REDACTED PRIVATE KEY]`. -/
def tryPK (l : List Char) : Option (List Char × Nat) :=
  if startsWithCI "-----begin ".data l then
    match pkHeaderTail (l.drop 11) with
    | none => none
    | some hn =>
      match findEnd (l.drop (11 + hn)) with
      | none => none
      | some (j, en) => some ("[REDACTED PRIVATE KEY]".data, 11 + hn + j + en)
  else none

/-- The JWT segment class `[a-zA-Z0-9_-]`. -/
def jwtClass (c : Char) : Bool := c.isAlpha || c.isDigit || c = '_' || c = '-'

/-- Anchored `eyJ[a-zA-Z0-9_-]+\.[a-zA-Z0-9_-]+\.?[a-zA-Z0-9_-]*`
(case-sensitive) with replacement `[REDACTED JWT]`. -/
def tryJWT (l : List Char) : Option (List Char × Nat) :=
  if "eyJ".data.isPrefixOf l then
    let r1 := l.drop 3
    let run1 := r1.takeWhile jwtClass
    if run1.length = 0 then none
    else
      match r1.drop run1.length with
      | '.' :: r2 =>
        let run2 := r2.takeWhile jwtClass
        if run2.length = 0 then none
        else
          match r2.drop run2.length with
          | '.' :: r4 =>
            let run3 := r4.takeWhile jwtClass
            some ("[REDACTED JWT]".data, 3 + run1.length + 1 + run2.length + 1 + run3.length)
          | _ => some ("[REDACTED JWT]".data, 3 + run1.length + 1 + run2.length)
      | _ => none
  else none

/-- The class `[a-z0-9]` under `(?i)`: ASCII letters of either case and digits. -/
def skAlnum (c : Char) : Bool := c.isAlpha || c.isDigit

/-- Anchored `(?i)sk-[a-z0-9]{20,}` with replacement `[REDACTED KEY]`. -/
def trySK (l : List Char) : Option (List Char × Nat) :=
  if startsWithCI "sk-".data l then
    let run := (l.drop 3).takeWhile skAlnum
    if 20 ≤ run.length then some ("[REDACTED KEY]".data, 3 + run.length) else none
  else none

/-- util `RedactSecrets`: the four replace-alls in source order. -/
def RedactSecrets (input : String) : String :=
  String.mk (replaceAll trySK (replaceAll tryJWT (replaceAll tryPK
    (replaceAll tryKV input.data))))

/-! ## Auxiliary observations used in theorem statements -/

/-- The quote/escape automaton of `splitCommand`, carrying only
`(escape, inSingle, inDouble)` — the claim's notion of a string ending
inside an open quote or a dangling escape. -/
def flagStep (f : Bool × Bool × Bool) (r : Char) : Bool × Bool × Bool :=
  if f.1 then (false, f.2.1, f.2.2)
  else if r = '\\' ∧ f.2.1 = false then (true, f.2.1, f.2.2)
  else if r = '\'' ∧ f.2.2 = false then (false, !f.2.1, f.2.2)
  else if r = '"' ∧ f.2.1 = false then (false, f.2.1, !f.2.2)
  else (false, f.2.1, f.2.2)

/-- Whether the string ends with an open quote or a dangling escape. -/
def unterminated (s : String) : Bool :=
  (s.data.foldl flagStep (false, false, false)).1 ||
  (s.data.foldl flagStep (false, false, false)).2.1 ||
  (s.data.foldl flagStep (false, false, false)).2.2

/-- The call identifier carried by a tool-result message (`none` for every
other message kind). -/
def msgCallId : Msg → Option String
  | Msg.toolResult _ callId => some callId
  | _ => none

/-- The rewriting relation underlying `replaceAll`: `Rw tryM l o` holds when
`o` is obtained from `l` by the leftmost-scan replacement process. -/
inductive Rw (tryM : List Char → Option (List Char × Nat)) : List Char → List Char → Prop
  | nil : Rw tryM [] []
  | copy {c : Char} {l o : List Char} :
      tryM (c :: l) = none → Rw tryM l o → Rw tryM (c :: l) (c :: o)
  | repl {l o : List Char} {r : List Char} {n : Nat} :
      tryM l = some (r, n) → l ≠ [] → Rw tryM (l.drop (max n 1)) o → Rw tryM l (r ++ o)

def SKFree (l : List Char) : Prop := ∀ t, t <:+ l → trySK t = none

def JWTFree (l : List Char) : Prop := ∀ t, t <:+ l → tryJWT t = none

def PKFree (l : List Char) : Prop := ∀ t, t <:+ l → tryPK t = none

/-- The head facts needed to walk kv components over a pass: both the
matched text and the replacement start with a rune that is not space,
not a separator, and a value rune. -/
def HStep (tryM : List Char → Option (List Char × Nat)) : Prop :=
  ∀ a r n, tryM a = some (r, n) →
    (∃ ch z, a = ch :: z ∧ reIsSpace ch = false ∧ ch ≠ ':' ∧ ch ≠ '=' ∧
      kvValueChar ch = true) ∧
    (∃ ch z, r = ch :: z ∧ reIsSpace ch = false ∧ ch ≠ ':' ∧ ch ≠ '=' ∧
      kvValueChar ch = true)

def KVFix (l : List Char) : Prop :=
  ∀ t, t <:+ l → ∀ r n, tryKV t = some (r, n) → r = t.take n ∧ 1 ≤ n

/-! # Theorems -/

/-! ## Helper lemmas -/

lemma entryMatchesAux_eq_isPrefixOf (es ns : List String) :
    entryMatchesAux es ns = es.isPrefixOf ns := by
  induction es generalizing ns with
  | nil => cases ns <;> rfl
  | cons e es ih =>
    cases ns with
    | nil => rfl
    | cons n ns =>
      simp only [entryMatchesAux, List.isPrefixOf, ih]
      by_cases h : e = n <;> simp [h]

lemma splitCommand_error_msg (s : String) (e : String)
    (h : splitCommand s = .error e) :
    e = "unterminated quote or escape in command" := by
  simp only [splitCommand] at h
  split at h
  · exact ((Except.error.injEq _ _).mp h).symm
  · split at h <;> simp at h

lemma exists_error_of_ite {α : Type} (c : Prop) [Decidable c] (a b : String) :
    ∃ e, (if c then (Except.error a : Except String α) else Except.error b) = Except.error e := by
  by_cases h : c
  · exact ⟨a, by simp [h]⟩
  · exact ⟨b, by simp [h]⟩

lemma executeGuard_empty_errors (cmd : String) :
    ∃ e, executeGuard [] false cmd = .error e := by
  unfold executeGuard
  repeat' split
  all_goals first
    | exact ⟨_, rfl⟩
    | exact exists_error_of_ite _ _ _
    | simp_all

/-! ## C1: child-process environment -/

/-- C1: the claim says the restricted shell tool runs child processes with
an explicitly minimal/empty environment independent of the parent's.  In
fact `minimalEnv` returns the nil slice on every platform, and under Go
`os/exec` a nil `Env` makes the child inherit the parent environment in
full: the effective child environment always equals the parent's, so a
parent secret is inherited.  (This refutes the claim as a property of the
code; the spec and the function's own name state the intent, so the code
is the bug.) -/
theorem minimalEnv_inherits_parent_env :
    (∀ (parentEnv : List String) (goosWindows : Bool),
        effectiveChildEnv parentEnv (minimalEnv goosWindows) = parentEnv) ∧
    effectiveChildEnv ["AWS_SECRET_ACCESS_KEY=abc"] (minimalEnv false) =
      ["AWS_SECRET_ACCESS_KEY=abc"] ∧
    ["AWS_SECRET_ACCESS_KEY=abc"] ≠ ([] : List String) := by
  refine ⟨?_, rfl, by simp⟩
  intro parentEnv goosWindows
  cases goosWindows <;> rfl

/-! ## C3: allowlist prefix matching -/

/-- C3: with the unsafe override disabled, a tokenized command is permitted
iff it starts with some allowlist entry's ordered token sequence
(case-insensitively — normalized entries are lowercase and the command's
tokens are lowered before comparison); `git status -sb` is permitted and
`git commit -m x` rejected under entry `["git status"]`; and with no
allowlist configured every command is rejected. -/
theorem allowlist_matching_spec :
    (∀ (allowlist : List (List String)) (cmdParts : List String),
        ([] : List String) ∉ allowlist →
        (allowed allowlist cmdParts = true ↔
          ∃ e ∈ allowlist, e.isPrefixOf (cmdParts.map lowerStr) = true)) ∧
    executeGuard (normalizeAllowlist ["git status"]) false "git status -sb" =
      .ok ["git", "status", "-sb"] ∧
    executeGuard (normalizeAllowlist ["git status"]) false "git commit -m x" =
      .error "command not allowlisted: git" ∧
    allowed (normalizeAllowlist ["git status"]) ["GIT", "Status", "-sb"] = true ∧
    (∀ cmd, ∃ e, executeGuard (normalizeAllowlist []) false cmd = .error e) := by
  refine ⟨?_, by rfl, by rfl, by decide, ?_⟩
  · intro allowlist cmdParts hnil
    unfold allowed
    split
    · rename_i h
      constructor
      · intro hfalse
        exact absurd hfalse (by simp)
      · rintro ⟨e, he, hp⟩
        rcases h with h | h
        · subst h
          exact absurd he (List.not_mem_nil e)
        · subst h
          rw [List.isPrefixOf_iff_prefix] at hp
          simp only [List.map_nil, List.prefix_nil] at hp
          exact (hnil (hp ▸ he)).elim
    · simp only [List.any_eq_true, entryMatchesAux_eq_isPrefixOf]
  · intro cmd
    exact executeGuard_empty_errors cmd

/-- Witness for the hypotheses of `allowlist_matching_spec`: instantiated at
the normalized allowlist `[["git","status"]]` (which does not contain the
empty entry) and the command tokens `["Git","Status"]`. -/
theorem allowlist_matching_spec_witness :
    allowed [["git", "status"]] ["Git", "Status"] = true ↔
      ∃ e ∈ [["git", "status"]], e.isPrefixOf (["Git", "Status"].map lowerStr) = true :=
  allowlist_matching_spec.1 [["git", "status"]] ["Git", "Status"] (by decide)

/-! ## C4: destructive-pattern blocking -/

/-- C4: with the unsafe override disabled, a command whose raw string
matches a destructive pattern is rejected with the blocking error even when
its tokenized form is allowlisted (and not interactive/network); with the
unsafe override set, the destructive-pattern check is not applied at all —
any tokenizable non-interactive command passes the guard.  Concretely,
`rm -rf /` under allowlist `["rm"]` is blocked in safe mode and runs in
unsafe mode. -/
theorem destructive_blocking_spec :
    (∀ (allowlist : List (List String)) (cmd name : String) (rest : List String),
        trimSpace cmd ≠ "" →
        splitCommand cmd = .ok (name :: rest) →
        lowerStr name ∉ interactiveSet →
        allowed allowlist (name :: rest) = true →
        lowerStr name ∉ networkToolsSet →
        destructiveMatch cmd = true →
        executeGuard allowlist false cmd = .error "blocked potentially destructive command") ∧
    (∀ (allowlist : List (List String)) (cmd name : String) (rest : List String),
        trimSpace cmd ≠ "" →
        splitCommand cmd = .ok (name :: rest) →
        lowerStr name ∉ interactiveSet →
        executeGuard allowlist true cmd = .ok (name :: rest)) ∧
    executeGuard (normalizeAllowlist ["rm"]) false "rm -rf /" =
      .error "blocked potentially destructive command" ∧
    executeGuard (normalizeAllowlist ["rm"]) true "rm -rf /" = .ok ["rm", "-rf", "/"] := by
  refine ⟨?_, ?_, by rfl, by rfl⟩
  · intro allowlist cmd name rest htrim hsplit hint hallow hnet hdes
    have hne : allowlist ≠ [] := by
      intro h
      subst h
      simp [allowed] at hallow
    simp [executeGuard, if_neg htrim, hsplit, hint, hne, hallow, hnet, hdes]
  · intro allowlist cmd name rest htrim hsplit hint
    simp [executeGuard, if_neg htrim, hsplit, hint]

/-- Witness for the hypotheses of `destructive_blocking_spec`: allowlist
`[["rm"]]`, command `rm -rf /`. -/
theorem destructive_blocking_spec_witness :
    executeGuard [["rm"]] false "rm -rf /" = .error "blocked potentially destructive command" :=
  destructive_blocking_spec.1 [["rm"]] "rm -rf /" "rm" ["-rf", "/"]
    (by decide) (by rfl) (by decide) (by decide) (by decide) (by rfl)

/-! ## C5: command tokenizer -/

lemma splitStep_flags (st : SplitState) (r : Char) :
    ((splitStep st r).escape, (splitStep st r).inSingle, (splitStep st r).inDouble) =
      flagStep (st.escape, st.inSingle, st.inDouble) r := by
  unfold splitStep flagStep
  split_ifs <;> simp_all

lemma foldl_flags (l : List Char) (st : SplitState) :
    ((l.foldl splitStep st).escape, (l.foldl splitStep st).inSingle,
        (l.foldl splitStep st).inDouble) =
      l.foldl flagStep (st.escape, st.inSingle, st.inDouble) := by
  induction l generalizing st with
  | nil => rfl
  | cons c cs ih =>
    simp only [List.foldl_cons]
    rw [ih (splitStep st c), splitStep_flags]

/-- C5: the tokenizer splits on whitespace outside quotes, suppresses all
escaping inside single quotes, lets a backslash escape the next character
inside double quotes and outside quotes, and fails exactly when the string
ends inside an open quote or a dangling escape (the quote/escape automaton
ends in a non-clean state). -/
theorem splitCommand_tokenizer_spec :
    splitCommand "echo \"a b\"" = .ok ["echo", "a b"] ∧
    splitCommand "echo \"a" = .error "unterminated quote or escape in command" ∧
    splitCommand "a b\tc\nd" = .ok ["a", "b", "c", "d"] ∧
    splitCommand "'a\\b'" = .ok ["a\\b"] ∧
    splitCommand "\"a\\\\b\"" = .ok ["a\\b"] ∧
    splitCommand "a\\ b" = .ok ["a b"] ∧
    splitCommand "a\\" = .error "unterminated quote or escape in command" ∧
    (∀ s : String, (∃ e, splitCommand s = .error e) ↔ unterminated s = true) := by
  refine ⟨by rfl, by rfl, by rfl, by rfl, by rfl, by rfl, by rfl, ?_⟩
  intro s
  have hf := foldl_flags s.data initSplitState
  rw [show (initSplitState.escape, initSplitState.inSingle, initSplitState.inDouble) =
      (false, false, false) from rfl] at hf
  have h1 := congrArg Prod.fst hf
  have h2 := congrArg (fun p => p.2.1) hf
  have h3 := congrArg (fun p => p.2.2) hf
  simp only at h1 h2 h3
  constructor
  · rintro ⟨e, he⟩
    simp only [splitCommand] at he
    split at he
    · rename_i hcond
      simp only [unterminated, Bool.or_eq_true]
      rcases hcond with hc | hc | hc
      · rw [h1] at hc
        exact Or.inl (Or.inl hc)
      · rw [h2] at hc
        exact Or.inl (Or.inr hc)
      · rw [h3] at hc
        exact Or.inr hc
    · split at he <;> simp at he
  · intro hu
    simp only [unterminated, Bool.or_eq_true] at hu
    have hcond : (s.data.foldl splitStep initSplitState).escape = true ∨
        (s.data.foldl splitStep initSplitState).inSingle = true ∨
        (s.data.foldl splitStep initSplitState).inDouble = true := by
      rcases hu with (hc | hc) | hc
      · exact Or.inl (by rw [h1]; exact hc)
      · exact Or.inr (Or.inl (by rw [h2]; exact hc))
      · exact Or.inr (Or.inr (by rw [h3]; exact hc))
    exact ⟨_, by simp only [splitCommand]; rw [if_pos hcond]⟩

/-! ## C10: allowlist normalization drops bad entries -/

/-- C10 counterexample: with every configured entry dropped (empty,
whitespace-only, unterminated quote), the claim says every command is then
rejected with a "shell allowlist is empty" error; but the command `vim` is
rejected with the interactive-command error instead. -/
theorem allowlist_drop_counterexample :
    normalizeAllowlist ["", "   ", "git \"status"] = [] ∧
    executeGuard (normalizeAllowlist ["", "   ", "git \"status"]) false "vim" =
      .error "interactive commands are not allowed: vim" ∧
    ("interactive commands are not allowed: vim" : String) ≠ "shell allowlist is empty" :=
  ⟨by rfl, by rfl, by decide⟩

/-- C10 (amended): allowlist construction silently drops every entry that is
empty/whitespace-only or fails to tokenize; when every entry is dropped the
tool behaves as with no allowlist: with the unsafe override disabled every
command is rejected, and every nonblank command that tokenizes and is not
interactive is rejected with the "shell allowlist is empty" error. -/
theorem allowlist_drop_spec :
    (∀ item : String,
        trimSpace item = "" ∨ (∃ e, splitCommand (trimSpace item) = .error e) →
        normalizeEntry item = none) ∧
    (∀ list : List String, (∀ item ∈ list, normalizeEntry item = none) →
        normalizeAllowlist list = []) ∧
    (∀ cmd, ∃ e, executeGuard [] false cmd = .error e) ∧
    (∀ (cmd name : String) (rest : List String),
        trimSpace cmd ≠ "" →
        splitCommand cmd = .ok (name :: rest) →
        lowerStr name ∉ interactiveSet →
        executeGuard [] false cmd = .error "shell allowlist is empty") ∧
    normalizeAllowlist ["", "   ", "git \"status"] = [] := by
  refine ⟨?_, ?_, ?_, ?_, by rfl⟩
  · intro item h
    rcases h with h | ⟨e, he⟩
    · simp [normalizeEntry, h]
    · simp [normalizeEntry, he]
  · intro list h
    induction list with
    | nil => rfl
    | cons x xs ih =>
      have hx : normalizeEntry x = none := h x (by simp)
      have ih2 := ih (fun item hm => h item (by simp [hm]))
      simp only [normalizeAllowlist] at ih2 ⊢
      simp [hx, ih2]
  · intro cmd
    exact executeGuard_empty_errors cmd
  · intro cmd name rest ht hs hint
    simp [executeGuard, if_neg ht, hs, hint]

/-- Witness for the hypotheses of `allowlist_drop_spec`: the command `ls`
under the emptied allowlist. -/
theorem allowlist_drop_spec_witness :
    executeGuard [] false "ls" = .error "shell allowlist is empty" :=
  allowlist_drop_spec.2.2.2.1 "ls" "ls" [] (by decide) (by rfl) (by decide)

/-! ## C9: plan parsing fallback -/

/-- C9 counterexample: when parsing yields fewer than 3 usable lines, the
fixed fallback items are appended to the parsed lines, not substituted for
them: a one-line response yields a 4-item plan that retains the parsed
line, not "a fixed fallback 3-item plan". -/
theorem parsePlan_fallback_not_substituted :
    parsePlan "Investigate the build" =
      ["Investigate the build", "Review repository context", "Run targeted tool calls",
        "Produce cited answer"] ∧
    (parsePlan "Investigate the build").length = 4 :=
  ⟨by rfl, by rfl⟩

lemma planFoldl_len_le (lines : List String) (acc : List String) (h : acc.length ≤ 8) :
    (lines.foldl planStep acc).length ≤ 8 := by
  induction lines generalizing acc with
  | nil => exact h
  | cons l ls ih =>
    simp only [List.foldl_cons]
    apply ih
    unfold planStep
    split
    · exact h
    · split
      · rename_i hlen
        simp only [List.length_append, List.length_cons, List.length_nil]
        omega
      · exact h


/-- C9 (amended): response lines are parsed into a bullet list (leading
`-`/`*` stripped, blank lines dropped, capped at 8 items); when fewer than
3 usable lines result the three fixed fallback items are appended to the
parsed lines (the plan keeps the parsed items); when the planning request
fails a fixed 3-item plan is substituted. -/
theorem parsePlan_fallback_spec :
    (∀ text : String, (parsePlanRaw text).length < 3 →
        parsePlan text = parsePlanRaw text ++ fallbackParsedPlan) ∧
    (∀ text : String, 3 ≤ (parsePlanRaw text).length →
        parsePlan text = parsePlanRaw text) ∧
    (∀ e : String, generatePlan (.error e) = fallbackRequestPlan) ∧
    (∀ resp : String, generatePlan (.ok resp) = parsePlan resp) ∧
    (∀ text : String, (parsePlanRaw text).length ≤ 8) ∧
    parsePlan "- a\n* b\n\n- c" = ["a", "b", "c"] := by
  refine ⟨?_, ?_, fun e => rfl, fun resp => rfl, ?_, by rfl⟩
  · intro t h
    unfold parsePlan
    rw [if_pos h]
  · intro t h
    unfold parsePlan
    rw [if_neg (by omega)]
  · intro t
    unfold parsePlanRaw
    exact planFoldl_len_le _ [] (by simp)

/-- Witness for the hypotheses of `parsePlan_fallback_spec`: the one-line
response parses to 1 < 3 usable lines, so the fallback is appended. -/
theorem parsePlan_fallback_spec_witness :
    parsePlan "Investigate the build" =
      parsePlanRaw "Investigate the build" ++ fallbackParsedPlan :=
  parsePlan_fallback_spec.1 "Investigate the build" (by decide)

/-! ## C8: line/byte truncation -/

lemma foldl_add_utf8 (l : List Char) (n : Nat) :
    l.foldl (fun m c => m + c.utf8Size) n = n + l.foldl (fun m c => m + c.utf8Size) 0 := by
  induction l generalizing n with
  | nil => simp
  | cons c cs ih =>
    simp only [List.foldl_cons, Nat.zero_add]
    rw [ih (n + c.utf8Size), ih c.utf8Size]
    omega

lemma byteLen_append (a b : String) : byteLen (a ++ b) = byteLen a + byteLen b := by
  obtain ⟨la⟩ := a
  obtain ⟨lb⟩ := b
  show (la ++ lb).foldl (fun m c => m + c.utf8Size) 0 = _
  rw [List.foldl_append, foldl_add_utf8]
  rfl

lemma byteLen_newline : byteLen "\n" = 1 := rfl

lemma joinLen_cons_cons (x y : String) (xs : List String) :
    joinLen (x :: y :: xs) = byteLen x + 1 + joinLen (y :: xs) := by
  show byteLen (x ++ "\n" ++ goJoin (y :: xs)) = _
  rw [byteLen_append, byteLen_append, byteLen_newline]
  rfl

lemma byteLen_nil : byteLen "" = 0 := rfl

lemma joinLen_snoc (out : List String) (line : String) :
    joinLen (out ++ [line]) =
      joinLen out + (if out.length > 0 then 1 else 0) + byteLen line := by
  induction out with
  | nil => simp [joinLen, goJoin, byteLen_nil]
  | cons x xs ih =>
    cases xs with
    | nil =>
      rw [show (([x] : List String) ++ [line]) = [x, line] from rfl, joinLen_cons_cons]
      simp [joinLen, goJoin]
    | cons y ys =>
      rw [show ((x :: y :: ys : List String) ++ [line]) = x :: y :: (ys ++ [line]) from rfl,
          joinLen_cons_cons, show (y :: (ys ++ [line]) : List String) = (y :: ys) ++ [line] from rfl,
          ih, joinLen_cons_cons]
      simp only [List.length_cons]
      split_ifs <;> omega

lemma truncLoop_ok (ml mb : Int) (lines : List String) :
    ∀ (out : List String) (bc : Nat), bc = joinLen out →
      (∃ taken, (truncLoop ml mb lines out bc).1 = out ++ taken ∧ taken <+: lines) ∧
      (truncLoop ml mb lines out bc).2.2 = joinLen (truncLoop ml mb lines out bc).1 := by
  induction lines with
  | nil =>
    intro out bc hbc
    exact ⟨⟨[], by simp [truncLoop], List.nil_prefix⟩, by simpa [truncLoop] using hbc⟩
  | cons line rest ih =>
    intro out bc hbc
    unfold truncLoop
    split_ifs
    all_goals first
      | exact ⟨⟨[], by simp, List.nil_prefix⟩, by simpa using hbc⟩
      | (obtain ⟨⟨taken, hh1, hh2⟩, hh3⟩ :=
          ih (out ++ [line]) (bc + 1 + byteLen line)
            (by rw [joinLen_snoc, hbc]; split_ifs <;> simp_all)
         exact ⟨⟨line :: taken, by rw [hh1, List.append_assoc]; rfl,
           List.cons_prefix_cons.mpr ⟨rfl, hh2⟩⟩, hh3⟩)
      | (obtain ⟨⟨taken, hh1, hh2⟩, hh3⟩ :=
          ih (out ++ [line]) (bc + 0 + byteLen line)
            (by rw [joinLen_snoc, hbc]; split_ifs <;> simp_all)
         exact ⟨⟨line :: taken, by rw [hh1, List.append_assoc]; rfl,
           List.cons_prefix_cons.mpr ⟨rfl, hh2⟩⟩, hh3⟩)

lemma truncLoop_len_le (ml mb : Int) (lines : List String) :
    ∀ (out : List String) (bc : Nat), 0 < ml → (out.length : Int) ≤ ml →
      (((truncLoop ml mb lines out bc).1.length : Int)) ≤ ml := by
  induction lines with
  | nil =>
    intro out bc h1 h2
    simpa [truncLoop] using h2
  | cons line rest ih =>
    intro out bc h1 h2
    unfold truncLoop
    split_ifs
    all_goals first
      | simpa using h2
      | (refine ih _ _ h1 ?_
         simp only [List.length_append, List.length_cons, List.length_nil]
         push_cast
         push_cast at h2
         omega)

lemma truncLoop_bytes_le (ml mb : Int) (lines : List String) :
    ∀ (out : List String) (bc : Nat), 0 < mb → (bc : Int) ≤ mb →
      (((truncLoop ml mb lines out bc).2.2 : Int)) ≤ mb := by
  induction lines with
  | nil =>
    intro out bc h1 h2
    simpa [truncLoop] using h2
  | cons line rest ih =>
    intro out bc h1 h2
    unfold truncLoop
    split_ifs
    all_goals first
      | simpa using h2
      | (refine ih _ _ h1 ?_
         push_cast
         omega)

lemma truncLoop_untruncated (ml mb : Int) (lines : List String) :
    ∀ (out : List String) (bc : Nat),
      (truncLoop ml mb lines out bc).2.1 = false →
      (truncLoop ml mb lines out bc).1 = out ++ lines := by
  induction lines with
  | nil =>
    intro out bc _
    simp [truncLoop]
  | cons line rest ih =>
    intro out bc h
    unfold truncLoop at h ⊢
    split_ifs at h ⊢
    all_goals first
      | simp_all
      | (rw [ih _ _ h, List.append_assoc]; rfl)

/-- C8: when both limits are positive, `TruncateLinesAndBytes` returns a
prefix of the input with no more than `maxLines` lines and a byte count
(equal to the byte length of joining the returned lines with one separator
byte per join) not exceeding `maxBytes`; when both limits are zero it
returns the input unchanged with `truncated = false`; and when it reports
`truncated = false` it consumed every line in order. -/
theorem truncateLinesAndBytes_spec :
    (∀ (lines : List String) (ml mb : Int), 0 < ml → 0 < mb →
        ((TruncateLinesAndBytes lines ml mb).1.length : Int) ≤ ml ∧
        ((TruncateLinesAndBytes lines ml mb).2.2 : Int) ≤ mb ∧
        (TruncateLinesAndBytes lines ml mb).1 <+: lines ∧
        (TruncateLinesAndBytes lines ml mb).2.2 =
          joinLen (TruncateLinesAndBytes lines ml mb).1) ∧
    (∀ lines : List String,
        TruncateLinesAndBytes lines 0 0 = (lines, false, joinLen lines)) ∧
    (∀ (lines : List String) (ml mb : Int),
        (TruncateLinesAndBytes lines ml mb).2.1 = false →
        (TruncateLinesAndBytes lines ml mb).1 = lines) := by
  refine ⟨?_, ?_, ?_⟩
  · intro lines ml mb hml hmb
    have hcond : ¬(ml ≤ 0 ∧ mb ≤ 0) := by omega
    unfold TruncateLinesAndBytes
    rw [if_neg hcond]
    obtain ⟨⟨taken, h1, h2⟩, h3⟩ := truncLoop_ok ml mb lines [] 0 (by rfl)
    refine ⟨truncLoop_len_le ml mb lines [] 0 hml (by simpa using hml.le),
      truncLoop_bytes_le ml mb lines [] 0 hmb (by simpa using hmb.le), ?_, h3⟩
    rw [h1]
    simpa using h2
  · intro lines
    unfold TruncateLinesAndBytes
    rw [if_pos ⟨le_refl 0, le_refl 0⟩]
  · intro lines ml mb h
    unfold TruncateLinesAndBytes at h ⊢
    by_cases hc : ml ≤ 0 ∧ mb ≤ 0
    · rw [if_pos hc]
    · rw [if_neg hc] at h ⊢
      simpa using truncLoop_untruncated ml mb lines [] 0 h

/-- Witness for the hypotheses of `truncateLinesAndBytes_spec`: positive
limits `maxLines = 2`, `maxBytes = 10` on a three-line input, and the
untruncated case on wide limits. -/
theorem truncateLinesAndBytes_spec_witness :
    (((TruncateLinesAndBytes ["ab", "cd", "ef"] 2 10).1.length : Int) ≤ 2 ∧
      ((TruncateLinesAndBytes ["ab", "cd", "ef"] 2 10).2.2 : Int) ≤ 10 ∧
      (TruncateLinesAndBytes ["ab", "cd", "ef"] 2 10).1 <+: ["ab", "cd", "ef"] ∧
      (TruncateLinesAndBytes ["ab", "cd", "ef"] 2 10).2.2 =
        joinLen (TruncateLinesAndBytes ["ab", "cd", "ef"] 2 10).1) ∧
    (TruncateLinesAndBytes ["ab", "cd", "ef"] 9 99).1 = ["ab", "cd", "ef"] :=
  ⟨truncateLinesAndBytes_spec.1 ["ab", "cd", "ef"] 2 10 (by decide) (by decide),
   truncateLinesAndBytes_spec.2.2 ["ab", "cd", "ef"] 9 99 (by decide)⟩

/-! ## C2: one tool-result message per tool call -/

lemma processCall_id (registry : List (String × (String → Except String String)))
    (call : ToolCall) : msgCallId (processCall registry call) = some call.id := by
  unfold processCall
  split
  · rfl
  · split <;> rfl

/-- C2: inside one step of `Agent.Run`, every tool call requested by the
assistant — unknown tool names and failing executions included — produces
exactly one tool-result message carrying that call's identifier, in order;
and when the model answers with tool calls the loop's next model request is
made on the history extended by exactly the assistant message plus those
tool-result messages. -/
theorem tool_results_pair_calls :
    (∀ (registry : List (String × (String → Except String String)))
        (calls : List ToolCall),
        (toolResponseMsgs registry calls).length = calls.length) ∧
    (∀ (registry : List (String × (String → Except String String)))
        (calls : List ToolCall),
        (toolResponseMsgs registry calls).map msgCallId =
          calls.map (fun c => some c.id)) ∧
    (∀ (client : List Msg → Except String ModelResp)
        (registry : List (String × (String → Except String String)))
        (jsonMode : Bool) (streamF : List Msg → Except String String)
        (fuel : Nat) (messages : List Msg) (steps : Nat) (resp : ModelResp),
        client messages = .ok resp → resp.toolCalls ≠ [] →
        runSteps client registry jsonMode streamF (fuel + 1) messages steps =
          runSteps client registry jsonMode streamF fuel
            (messages ++ [Msg.assistantCalls resp.toolCalls] ++
              toolResponseMsgs registry resp.toolCalls) (steps + 1)) := by
  refine ⟨?_, ?_, ?_⟩
  · intro registry calls
    simp [toolResponseMsgs]
  · intro registry calls
    simp only [toolResponseMsgs, List.map_map]
    exact List.map_congr_left (fun c _ => processCall_id registry c)
  · intro client registry jsonMode streamF fuel messages steps resp hc hne
    simp only [runSteps]
    rw [hc]
    simp [hne]

/-- Witness for the hypotheses of `tool_results_pair_calls`: a stub model
that requests exactly one call of an unregistered tool. -/
theorem tool_results_pair_calls_witness :
    runSteps (fun _ => .ok ⟨"", [⟨"call1", "grep", "\x7b\x7d"⟩]⟩) [] true (fun _ => .ok "") 1
        [Msg.user "q"] 0 =
      runSteps (fun _ => .ok ⟨"", [⟨"call1", "grep", "\x7b\x7d"⟩]⟩) [] true (fun _ => .ok "") 0
        ([Msg.user "q"] ++ [Msg.assistantCalls [⟨"call1", "grep", "\x7b\x7d"⟩]] ++
          toolResponseMsgs [] [⟨"call1", "grep", "\x7b\x7d"⟩]) (0 + 1) :=
  tool_results_pair_calls.2.2 (fun _ => .ok ⟨"", [⟨"call1", "grep", "\x7b\x7d"⟩]⟩) [] true
    (fun _ => .ok "") 0 [Msg.user "q"] 0 ⟨"", [⟨"call1", "grep", "\x7b\x7d"⟩]⟩ rfl (by simp)

/-! ## Substring preservation under trimming and lowering (for C6) -/

lemma containsChars_correct (pat l : List Char) :
    containsChars pat l = true ↔ pat <:+: l := by
  induction l with
  | nil =>
    simp [containsChars, List.isPrefixOf_iff_prefix]
  | cons c cs ih =>
    simp only [containsChars, Bool.or_eq_true, List.isPrefixOf_iff_prefix, ih]
    exact (List.infix_cons_iff).symm

lemma containsChars_nil_pat (l : List Char) : containsChars [] l = true := by
  cases l <;> simp [containsChars, List.isPrefixOf]

lemma containsChars_map_dropWhile (pat : List Char) (f : Char → Char) (q : Char → Bool)
    (hq : ∀ d, q d = true → pat.head? ≠ some (f d)) :
    ∀ l : List Char, containsChars pat (l.map f) = true →
      containsChars pat ((l.dropWhile q).map f) = true := by
  intro l
  induction l with
  | nil => exact id
  | cons d ds ih =>
    intro h
    by_cases hd : q d = true
    · rw [List.dropWhile_cons_of_pos hd]
      apply ih
      cases pat with
      | nil => exact containsChars_nil_pat _
      | cons p ps =>
        simp only [List.map_cons, containsChars, Bool.or_eq_true] at h
        rcases h with h | h
        · exfalso
          rw [List.isPrefixOf_iff_prefix] at h
          have hpd : p = f d := (List.cons_prefix_cons.mp h).1
          exact hq d hd (by rw [List.head?_cons, hpd])
        · exact h
    · rw [List.dropWhile_cons_of_neg hd]
      exact h

lemma contains_phrase_trim (x pat : String)
    (hhead : ∀ d, goIsSpace d = true → pat.data.head? ≠ some (Char.toLower d))
    (hlast : ∀ d, goIsSpace d = true → pat.data.reverse.head? ≠ some (Char.toLower d))
    (h : containsStr (lowerStr x) pat = true) :
    containsStr (lowerStr (trimSpace x)) pat = true := by
  simp only [containsStr, lowerStr, trimSpace] at h ⊢
  have h2 : containsChars pat.data ((x.data.dropWhile goIsSpace).map Char.toLower) = true :=
    containsChars_map_dropWhile pat.data Char.toLower goIsSpace hhead x.data h
  have h3 : containsChars pat.data.reverse
      ((x.data.dropWhile goIsSpace).reverse.map Char.toLower) = true := by
    rw [containsChars_correct] at h2 ⊢
    rw [List.map_reverse]
    exact List.reverse_infix.mpr h2
  have h4 : containsChars pat.data.reverse
      (((x.data.dropWhile goIsSpace).reverse.dropWhile goIsSpace).map Char.toLower) = true :=
    containsChars_map_dropWhile pat.data.reverse Char.toLower goIsSpace hlast _ h3
  rw [containsChars_correct] at h4 ⊢
  rw [List.map_reverse]
  simpa using List.reverse_infix.mpr h4

/-! ## C6: step-budget exhaustion -/

lemma data_append (a b : String) : (a ++ b).data = a.data ++ b.data := by
  obtain ⟨la⟩ := a
  obtain ⟨lb⟩ := b
  rfl

lemma lowerStr_append (a b : String) : lowerStr (a ++ b) = lowerStr a ++ lowerStr b := by
  obtain ⟨la⟩ := a
  obtain ⟨lb⟩ := b
  show String.mk (((la ++ lb : List Char)).map Char.toLower) = _
  rw [List.map_append]
  rfl

lemma containsChars_append_left (pat a b : List Char) (h : containsChars pat a = true) :
    containsChars pat (a ++ b) = true := by
  rw [containsChars_correct] at h ⊢
  exact h.trans (List.prefix_append a b).isInfix

lemma goIsSpace_mem (d : Char) (hd : goIsSpace d = true) :
    d ∈ [' ', '\t', '\n', '\x0b', '\x0c', '\r', '\u0085', ' '] := by
  simp only [goIsSpace, Bool.or_eq_true, decide_eq_true_eq] at hd
  simp only [List.mem_cons, List.not_mem_nil, or_false]
  tauto

lemma ws_not_maxsteps_head (d : Char) (hd : goIsSpace d = true) :
    "max steps".data.head? ≠ some (Char.toLower d) := by
  have hm := goIsSpace_mem d hd
  fin_cases hm <;> decide

lemma ws_not_maxsteps_last (d : Char) (hd : goIsSpace d = true) :
    "max steps".data.reverse.head? ≠ some (Char.toLower d) := by
  have hm := goIsSpace_mem d hd
  fin_cases hm <;> decide

/-- After the force-prefix step of the max-steps epilogue, the trimmed
final answer always contains the phrase "max steps" (case-insensitively). -/
lemma epilogue_answer_contains (fa1 : String) :
    containsStr (lowerStr (trimSpace
      (if containsStr (lowerStr fa1) "max steps" = false
        then "Max steps reached. " ++ fa1 else fa1))) "max steps" = true := by
  split_ifs with h
  · apply contains_phrase_trim _ _ (fun d hd => ws_not_maxsteps_head d hd)
      (fun d hd => ws_not_maxsteps_last d hd)
    rw [lowerStr_append]
    simp only [containsStr, data_append]
    exact containsChars_append_left _ _ _ (by decide)
  · simp only [Bool.not_eq_false] at h
    exact contains_phrase_trim _ _ (fun d hd => ws_not_maxsteps_head d hd)
      (fun d hd => ws_not_maxsteps_last d hd) h

/-- C6: when the step budget runs out without a non-tool-calling response,
the run appends the developer max-steps instruction, issues one final
streamed request on that extended history (outside JSON mode), uses its
non-blank result as the answer, force-prefixes a "Max steps reached."
notice when the model's text lacks the phrase, sets status `partial`, and
returns the non-nil "max steps reached" error alongside the answer — which
always contains "max steps".  A budget of 1 against an always-tool-calling
stub ends partial with the notice. -/
theorem max_steps_epilogue_spec :
    (∀ (client : List Msg → Except String ModelResp)
        (registry : List (String × (String → Except String String)))
        (jsonMode : Bool) (streamF : List Msg → Except String String),
        (∀ m, ∃ r, client m = .ok r ∧ r.toolCalls ≠ []) →
        ∀ (fuel : Nat) (messages : List Msg) (steps : Nat),
          ∃ ans, runSteps client registry jsonMode streamF fuel messages steps =
              (⟨"partial", ans, steps + fuel⟩, some "max steps reached") ∧
            containsStr (lowerStr ans) "max steps" = true) ∧
    (∀ (client : List Msg → Except String ModelResp)
        (registry : List (String × (String → Except String String)))
        (streamF : List Msg → Except String String) (messages : List Msg)
        (steps : Nat) (s : String),
        streamF (messages ++ [Msg.developer maxStepsWarning]) = .ok s →
        trimSpace s ≠ "" →
        containsStr (lowerStr s) "max steps" = true →
        runSteps client registry false streamF 0 messages steps =
          (⟨"partial", trimSpace s, steps⟩, some "max steps reached")) ∧
    (∀ (client : List Msg → Except String ModelResp)
        (registry : List (String × (String → Except String String)))
        (streamF : List Msg → Except String String) (messages : List Msg)
        (steps : Nat) (s : String),
        streamF (messages ++ [Msg.developer maxStepsWarning]) = .ok s →
        trimSpace s ≠ "" →
        containsStr (lowerStr s) "max steps" = false →
        runSteps client registry false streamF 0 messages steps =
          (⟨"partial", trimSpace ("Max steps reached. " ++ s), steps⟩,
            some "max steps reached")) ∧
    runAgent (fun _ => .ok ⟨"", [⟨"1", "shell", "\x7b\x7d"⟩]⟩) [] false
        (fun _ => .error "no stream") 1 [Msg.user "q"] =
      (⟨"partial", "Max steps reached; unable to complete.", 1⟩,
        some "max steps reached") := by
  refine ⟨?_, ?_, ?_, ?_⟩
  · intro client registry jsonMode streamF hH fuel
    induction fuel with
    | zero =>
      intro messages steps
      exact ⟨_, rfl, epilogue_answer_contains _⟩
    | succ n ih =>
      intro messages steps
      obtain ⟨resp, hcl, hne⟩ := hH messages
      obtain ⟨ans, h1, h2⟩ := ih
        (messages ++ [Msg.assistantCalls resp.toolCalls] ++
          toolResponseMsgs registry resp.toolCalls) (steps + 1)
      refine ⟨ans, ?_, h2⟩
      simp only [runSteps]
      rw [hcl]
      simp only [if_neg hne]
      have harith : steps + 1 + n = steps + (n + 1) := by omega
      rw [harith] at h1
      exact h1
  · intro client registry streamF messages steps s hstream htrim hcont
    simp [runSteps, pickStreamed, hstream, htrim, hcont]
  · intro client registry streamF messages steps s hstream htrim hcont
    simp [runSteps, pickStreamed, hstream, htrim, hcont]
  · rfl

/-- Witness for the hypotheses of `max_steps_epilogue_spec`: an
always-tool-calling stub with budget 1, and a streamed best-effort answer
already containing the phrase. -/
theorem max_steps_epilogue_spec_witness :
    (∃ ans, runSteps (fun _ => .ok ⟨"", [⟨"1", "shell", "\x7b\x7d"⟩]⟩) [] true
          (fun _ => .ok "") 1 [Msg.user "q"] 0 =
        (⟨"partial", ans, 0 + 1⟩, some "max steps reached") ∧
      containsStr (lowerStr ans) "max steps" = true) ∧
    runSteps (fun _ => .error "unused") [] false (fun _ => .ok "max steps were hit") 0
        [] 0 =
      (⟨"partial", trimSpace "max steps were hit", 0⟩, some "max steps reached") :=
  ⟨max_steps_epilogue_spec.1 (fun _ => .ok ⟨"", [⟨"1", "shell", "\x7b\x7d"⟩]⟩) [] true
      (fun _ => .ok "") (fun m => ⟨⟨"", [⟨"1", "shell", "\x7b\x7d"⟩]⟩, rfl, by simp⟩) 1
      [Msg.user "q"] 0,
   max_steps_epilogue_spec.2.1 (fun _ => .error "unused") [] (fun _ => .ok "max steps were hit")
      [] 0 "max steps were hit" rfl (by decide) (by decide)⟩

/-! ## C7 development: idempotence of RedactSecrets -/

lemma replaceAll_nil (tryM : List Char → Option (List Char × Nat)) :
    replaceAll tryM [] = [] := by
  rw [replaceAll]

lemma replaceAll_cons (tryM : List Char → Option (List Char × Nat)) (c : Char) (cs : List Char) :
    replaceAll tryM (c :: cs) =
      match tryM (c :: cs) with
      | none => c :: replaceAll tryM cs
      | some (r, n) => r ++ replaceAll tryM (List.drop (max n 1) (c :: cs)) := by
  rw [replaceAll]


lemma rw_replaceAll (tryM : List Char → Option (List Char × Nat)) :
    ∀ (N : Nat) (l : List Char), l.length ≤ N → Rw tryM l (replaceAll tryM l)
  | 0, [], _ => by
    rw [replaceAll_nil]
    exact Rw.nil
  | 0, c :: cs, h => by
    simp at h
  | N + 1, [], _ => by
    rw [replaceAll_nil]
    exact Rw.nil
  | N + 1, c :: cs, h => by
    rw [replaceAll_cons]
    cases htry : tryM (c :: cs) with
    | none =>
      exact Rw.copy htry (rw_replaceAll tryM N cs (by simpa using h))
    | some rn =>
      obtain ⟨r, n⟩ := rn
      refine Rw.repl htry (by simp) (rw_replaceAll tryM N _ ?_)
      have : (List.drop (max n 1) (c :: cs)).length ≤ cs.length := by
        simp only [List.length_drop, List.length_cons]
        omega
      simp only [List.length_cons] at h
      omega

lemma rw_of_replaceAll (tryM : List Char → Option (List Char × Nat)) (l : List Char) :
    Rw tryM l (replaceAll tryM l) :=
  rw_replaceAll tryM l.length l (le_refl _)

/-- If the matcher finds nothing at any suffix, `replaceAll` is the identity. -/
lemma replaceAll_eq_self (tryM : List Char → Option (List Char × Nat)) :
    ∀ l : List Char, (∀ t, t <:+ l → tryM t = none) → replaceAll tryM l = l := by
  intro l
  induction l with
  | nil => intro _; exact replaceAll_nil tryM
  | cons c cs ih =>
    intro h
    rw [replaceAll_cons, h (c :: cs) (List.suffix_refl _)]
    rw [ih (fun t ht => h t (ht.trans (List.suffix_cons c cs)))]

/-- If every match at every suffix is a fixed point (the replacement equals
the matched text) and consumes at least one rune, `replaceAll` is the
identity. -/
lemma replaceAll_eq_self_fix (tryM : List Char → Option (List Char × Nat)) :
    ∀ (N : Nat) (l : List Char), l.length ≤ N →
      (∀ t, t <:+ l → ∀ r n, tryM t = some (r, n) → r = t.take n ∧ 1 ≤ n) →
      replaceAll tryM l = l
  | 0, [], _, _ => replaceAll_nil tryM
  | 0, c :: cs, h, _ => by simp at h
  | N + 1, [], _, _ => replaceAll_nil tryM
  | N + 1, c :: cs, h, hfix => by
    rw [replaceAll_cons]
    cases htry : tryM (c :: cs) with
    | none =>
      rw [replaceAll_eq_self_fix tryM N cs (by simpa using h)
        (fun t ht r n hm => hfix t (ht.trans (List.suffix_cons c cs)) r n hm)]
    | some rn =>
      obtain ⟨r, n⟩ := rn
      obtain ⟨hr, hn⟩ := hfix (c :: cs) (List.suffix_refl _) r n htry
      have hmax : max n 1 = n := by omega
      show r ++ replaceAll tryM (List.drop (max n 1) (c :: cs)) = c :: cs
      rw [hmax, hr]
      rw [replaceAll_eq_self_fix tryM N (List.drop n (c :: cs)) ?_ ?_]
      · exact List.take_append_drop n (c :: cs)
      · simp only [List.length_drop, List.length_cons]
        simp only [List.length_cons] at h
        omega
      · intro t ht r' n' hm
        exact hfix t (ht.trans (List.drop_suffix n (c :: cs))) r' n' hm

/-- Prefix pull-back: along a rewrite whose replacements all start with `[`,
a `[`-free prefix of the output is a prefix of the input, and the remainders
are still related. -/
lemma rw_prefix_pullback (tryM : List Char → Option (List Char × Nat))
    (hrepl : ∀ l r n, tryM l = some (r, n) → ∃ r', r = '[' :: r') :
    ∀ (w l o : List Char), Rw tryM l o → w <+: o → '[' ∉ w →
      w <+: l ∧ Rw tryM (l.drop w.length) (o.drop w.length) := by
  intro w
  induction w with
  | nil =>
    intro l o hrw _ _
    exact ⟨List.nil_prefix, by simpa using hrw⟩
  | cons a w' ih =>
    intro l o hrw hpre hnb
    cases hrw with
    | nil => exact absurd hpre (by simp)
    | copy hnone hrw₂ =>
      obtain ⟨ha, hw'⟩ := List.cons_prefix_cons.mp hpre
      subst ha
      obtain ⟨h1, h2⟩ := ih _ _ hrw₂ hw' (fun hm => hnb (List.mem_cons_of_mem a hm))
      refine ⟨List.cons_prefix_cons.mpr ⟨rfl, h1⟩, ?_⟩
      simpa [List.length_cons] using h2
    | repl hm hne hrw₂ =>
      obtain ⟨r', hr⟩ := hrepl _ _ _ hm
      subst hr
      have := (List.cons_prefix_cons.mp hpre).1
      exact absurd this.symm (by intro h; exact hnb (h ▸ List.mem_cons_self a w'))

lemma infix_append_cases (w r o₂ : List Char) (h : w <:+: r ++ o₂) :
    w = [] ∨ (∃ c, w.head? = some c ∧ c ∈ r) ∨ w <:+: o₂ := by
  induction r with
  | nil => exact Or.inr (Or.inr (by simpa using h))
  | cons d r' ih =>
    rw [List.cons_append, List.infix_cons_iff] at h
    rcases h with h | h
    · cases w with
      | nil => exact Or.inl rfl
      | cons a w' =>
        have := (List.cons_prefix_cons.mp h).1
        exact Or.inr (Or.inl ⟨a, rfl, this ▸ List.mem_cons_self d r'⟩)
    · rcases ih h with h | ⟨c, hc1, hc2⟩ | h
      · exact Or.inl h
      · exact Or.inr (Or.inl ⟨c, hc1, List.mem_cons_of_mem d hc2⟩)
      · exact Or.inr (Or.inr h)

/-- Infix pull-back: a `[`-free word whose head occurs in no replacement
text occurs in the input whenever it occurs in the output. -/
lemma rw_infix_pullback (tryM : List Char → Option (List Char × Nat))
    (hrepl : ∀ l r n, tryM l = some (r, n) → ∃ r', r = '[' :: r')
    (w : List Char) (hnb : '[' ∉ w)
    (hstart : ∀ l r n, tryM l = some (r, n) → ∀ c, w.head? = some c → c ∉ r) :
    ∀ l o, Rw tryM l o → w <:+: o → w <:+: l := by
  intro l o hrw
  induction hrw with
  | nil => exact id
  | copy hnone hrw₂ ih =>
    intro hinf
    rw [List.infix_cons_iff] at hinf
    rcases hinf with hinf | hinf
    · exact ((rw_prefix_pullback tryM hrepl w _ _ (Rw.copy hnone hrw₂) hinf hnb).1).isInfix
    · exact (ih hinf).trans (List.suffix_cons _ _).isInfix
  | repl hm hne hrw₂ ih =>
    rename_i l₀ o₀ r n
    intro hinf
    rcases infix_append_cases w r o₀ hinf with h | ⟨c, hc1, hc2⟩ | h
    · subst h
      exact List.nil_infix
    · exact absurd hc2 (hstart _ _ _ hm c hc1)
    · exact (ih h).trans ((List.drop_suffix _ _).isInfix)

/-- Case-insensitive prefix matching reduced to lowered exact prefixes. -/
lemma startsWithCI_iff_lower (p l : List Char) :
    startsWithCI p l = true ↔
      (p.map Char.toLower).isPrefixOf (l.map Char.toLower) = true := by
  induction p generalizing l with
  | nil => simp [startsWithCI, List.isPrefixOf]
  | cons a p' ih =>
    cases l with
    | nil => simp [startsWithCI, List.isPrefixOf]
    | cons c l' =>
      simp [startsWithCI, List.isPrefixOf, ih]

lemma startsWithCI_length (p l : List Char) (h : startsWithCI p l = true) :
    p.length ≤ l.length := by
  induction p generalizing l with
  | nil => simp
  | cons a p' ih =>
    cases l with
    | nil => simp [startsWithCI] at h
    | cons c l' =>
      simp only [startsWithCI, Bool.and_eq_true] at h
      simpa [List.length_cons] using ih l' h.2

/-- `startsWithCI` only looks at the first `p.length` runes. -/
lemma startsWithCI_congr (p l₁ l₂ : List Char)
    (h : l₁.take p.length = l₂.take p.length) :
    startsWithCI p l₁ = startsWithCI p l₂ := by
  induction p generalizing l₁ l₂ with
  | nil => rfl
  | cons a p' ih =>
    cases l₁ with
    | nil =>
      cases l₂ with
      | nil => rfl
      | cons c₂ t₂ => simp [List.take] at h
    | cons c₁ t₁ =>
      cases l₂ with
      | nil => simp [List.take] at h
      | cons c₂ t₂ =>
        simp only [List.length_cons, List.take_succ_cons, List.cons.injEq] at h
        simp [startsWithCI, h.1, ih t₁ t₂ h.2]

lemma startsWithCI_take_append (p l : List Char) (h : startsWithCI p l = true)
    (tail : List Char) : startsWithCI p (l.take p.length ++ tail) = true := by
  rw [startsWithCI_congr p _ l ?_]
  · exact h
  · rw [List.take_append_eq_append_take]
    have hle := startsWithCI_length p l h
    simp only [List.length_take]
    rw [List.take_take]
    simp only [min_self]
    have hz : p.length - min p.length l.length = 0 := by omega
    rw [hz]
    simp

lemma char_ofNat_toNat (m : Nat) (h : m < 55296) : (Char.ofNat m).toNat = m := by
  unfold Char.ofNat
  rw [dif_pos (Or.inl h)]
  rfl

/-- The only rune whose simple lowering is `[` is `[` itself. -/
lemma toLower_eq_bracket (c : Char) (hc : c.toLower = '[') : c = '[' := by
  simp only [Char.toLower] at hc
  by_cases hcond : c.toNat ≥ 65 ∧ c.toNat ≤ 90
  · exfalso
    rw [if_pos hcond] at hc
    have h2 := congrArg Char.toNat hc
    rw [char_ofNat_toNat (c.toNat + 32) (by omega)] at h2
    have h91 : ('[').toNat = 91 := rfl
    omega
  · rw [if_neg hcond] at hc
    exact hc

/-- Runes ci-matched against a `[`-free pattern are not `[`. -/
lemma startsWithCI_no_bracket (p l : List Char) (h : startsWithCI p l = true)
    (hp : '[' ∉ p) : '[' ∉ l.take p.length := by
  induction p generalizing l with
  | nil => simp
  | cons a p' ih =>
    cases l with
    | nil => simp
    | cons c l' =>
      simp only [startsWithCI, Bool.and_eq_true, decide_eq_true_eq] at h
      simp only [List.length_cons, List.take_succ_cons, List.mem_cons, not_or]
      constructor
      · intro hc
        subst hc
        have hlb : a.toLower = '[' := by
          rw [h.1]
          rfl
        exact hp (toLower_eq_bracket a hlb ▸ List.mem_cons_self a p')
      · exact ih l' h.2 (fun hm => hp (List.mem_cons_of_mem a hm))

lemma toLower_eq_self_of_small (c d : Char) (hc : c.toLower = d)
    (hd : d.toNat < 97 ∨ 122 < d.toNat) : c = d := by
  simp only [Char.toLower] at hc
  by_cases hcond : c.toNat ≥ 65 ∧ c.toNat ≤ 90
  · exfalso
    rw [if_pos hcond] at hc
    have h2 := congrArg Char.toNat hc
    rw [char_ofNat_toNat (c.toNat + 32) (by omega)] at h2
    omega
  · rw [if_neg hcond] at hc
    exact hc

lemma suffix_append_cases (t r v : List Char) (h : t <:+ r ++ v) :
    t <:+ v ∨ ∃ rs, rs <:+ r ∧ rs ≠ [] ∧ t = rs ++ v := by
  induction r with
  | nil => exact Or.inl (by simpa using h)
  | cons d r' ih =>
    rw [List.cons_append, List.suffix_cons_iff] at h
    rcases h with h | h
    · exact Or.inr ⟨d :: r', List.suffix_refl _, by simp, by simpa using h⟩
    · rcases ih h with h | ⟨rs, h1, h2, h3⟩
      · exact Or.inl h
      · exact Or.inr ⟨rs, h1.trans (List.suffix_cons d r'), h2, h3⟩

lemma takeWhile_append_all (p : Char → Bool) (u v : List Char)
    (hu : ∀ c ∈ u, p c = true) :
    (u ++ v).takeWhile p = u ++ v.takeWhile p := by
  induction u with
  | nil => simp
  | cons d u' ih =>
    simp only [List.cons_append, List.takeWhile_cons]
    rw [hu d (List.mem_cons_self d u'), ih (fun c hc => hu c (List.mem_cons_of_mem d hc))]
    simp

lemma takeWhile_append_ge (p : Char → Bool) (u v : List Char)
    (hu : ∀ c ∈ u, p c = true) :
    u.length ≤ ((u ++ v).takeWhile p).length := by
  rw [takeWhile_append_all p u v hu]
  simp

lemma prefix_eq_take (w l : List Char) (h : w <+: l) : l.take w.length = w :=
  (List.prefix_iff_eq_take.mp h).symm

/-- A mismatch at an aligned index defeats `startsWithCI`. -/
lemma startsWithCI_blocked (p l : List Char) (j : Nat) (hj : j < p.length)
    (hjl : j < l.length)
    (hne : ∀ pc ∈ p, pc.toLower ≠ (l.get ⟨j, hjl⟩).toLower) :
    startsWithCI p l = false := by
  induction p generalizing l j with
  | nil => simp at hj
  | cons a p' ih =>
    cases l with
    | nil => simp at hjl
    | cons c l' =>
      cases j with
      | zero =>
        simp only [startsWithCI, Bool.and_eq_true, Bool.not_eq_true]
        have := hne a (List.mem_cons_self a p')
        simp only [List.get] at this
        simp only [Bool.and_eq_false_iff, decide_eq_false_iff_not]
        exact Or.inl this
      | succ j' =>
        simp only [List.length_cons, Nat.succ_lt_succ_iff] at hj hjl
        simp only [startsWithCI, Bool.and_eq_false_iff]
        right
        refine ih l' j' hj hjl ?_
        intro pc hpc
        have := hne pc (List.mem_cons_of_mem a hpc)
        simpa using this

/-! ### The sk pattern -/

lemma trySK_some_repl (l r : List Char) (n : Nat) (h : trySK l = some (r, n)) :
    r = "[REDACTED KEY]".data ∧ 3 + 20 ≤ n := by
  unfold trySK at h
  simp only [] at h
  split at h
  · split at h
    · rename_i hrun
      obtain ⟨h1, h2⟩ := Prod.mk.injEq .. ▸ (Option.some.injEq _ _).mp h
      exact ⟨h1.symm, by omega⟩
    · simp at h
  · simp at h

lemma trySK_repl_bracket : ∀ l r n, trySK l = some (r, n) → ∃ r', r = '[' :: r' := by
  intro l r n h
  obtain ⟨h1, _⟩ := trySK_some_repl l r n h
  exact ⟨_, by rw [h1]⟩

lemma trySK_none_of_head (c : Char) (z : List Char) (hc : c.toLower ≠ 's') :
    trySK (c :: z) = none := by
  unfold trySK
  rw [if_neg ?_]
  intro h
  simp only [startsWithCI, Bool.and_eq_true, decide_eq_true_eq] at h
  exact hc (by simpa using h.1.symm)

lemma skAlnum_no_bracket (ch : Char) (h : skAlnum ch = true) : ch ≠ '[' := by
  intro hc
  subst hc
  simp [skAlnum, Char.isAlpha, Char.isUpper, Char.isLower, Char.isDigit] at h

/-- Pull back an sk match along any rewrite whose replacements start `[`. -/
lemma trySK_pullback (tryM : List Char → Option (List Char × Nat))
    (hrepl : ∀ l r n, tryM l = some (r, n) → ∃ r', r = '[' :: r')
    (l o : List Char) (hrw : Rw tryM l o) (r : List Char) (n : Nat)
    (h : trySK o = some (r, n)) : ∃ r₂ n₂, trySK l = some (r₂, n₂) := by
  unfold trySK at h
  simp only [] at h
  split at h
  case isFalse => simp at h
  case isTrue hsw =>
    split at h
    case isFalse => simp at h
    case isTrue hrun =>
      set runo := List.takeWhile skAlnum (o.drop 3) with hruno
      have hlen3 : 3 ≤ o.length := startsWithCI_length "sk-".data o hsw
      have hrunlen : runo.length ≤ o.length - 3 := by
        have h0 := (List.takeWhile_prefix skAlnum (l := o.drop 3)).length_le
        simp only [List.length_drop] at h0
        rw [← hruno] at h0
        omega
      have htk3 : (o.take 3).length = 3 := by
        simp only [List.length_take]
        omega
      have hw : o.take (3 + runo.length) = o.take 3 ++ runo := by
        rw [List.take_add]
        congr 1
        exact prefix_eq_take runo (o.drop 3) (List.takeWhile_prefix skAlnum)
      have hnb : '[' ∉ o.take (3 + runo.length) := by
        rw [hw]
        intro hm
        rcases List.mem_append.mp hm with hm | hm
        · have hsw3 := startsWithCI_no_bracket "sk-".data o hsw (by decide)
          have h3 : ("sk-".data).length = 3 := rfl
          rw [h3] at hsw3
          exact hsw3 hm
        · exact skAlnum_no_bracket '[' (List.mem_takeWhile_imp hm) rfl
      obtain ⟨hpre, _⟩ := rw_prefix_pullback tryM hrepl (o.take (3 + runo.length)) l o hrw
        (List.take_prefix _ _) hnb
      obtain ⟨tail, htail⟩ := hpre
      have hL : l = o.take 3 ++ (runo ++ tail) := by
        rw [← htail, hw, List.append_assoc]
      unfold trySK
      simp only []
      rw [if_pos ?_]
      · rw [if_pos ?_]
        · exact ⟨_, _, rfl⟩
        · have hdrop : l.drop 3 = runo ++ tail := by
            rw [hL, List.drop_append_of_le_length (by omega)]
            rw [List.drop_eq_nil_of_le (by omega), List.nil_append]
          rw [hdrop]
          have := takeWhile_append_ge skAlnum runo tail
            (fun ch hc => List.mem_takeWhile_imp hc)
          omega
      · rw [startsWithCI_congr "sk-".data l o ?_]
        · exact hsw
        · have h3 : ("sk-".data).length = 3 := rfl
          rw [h3, hL, List.take_append_of_le_length (by omega)]
          rw [List.take_of_length_le (by omega)]

/-- No sk match can start inside (a suffix of) the sk replacement text. -/
lemma trySK_crossing_repl (rs z : List Char) (hs : rs <:+ "[REDACTED KEY]".data)
    (hne : rs ≠ []) : trySK (rs ++ z) = none := by
  cases rs with
  | nil => exact absurd rfl hne
  | cons c rs' =>
    have hc : c ∈ "[REDACTED KEY]".data := hs.subset (List.mem_cons_self c rs')
    rw [List.cons_append]
    refine trySK_none_of_head c (rs' ++ z) ?_
    fin_cases hc <;> decide


lemma SKFree_restrict {l : List Char} (h : SKFree l) {l₂ : List Char} (hs : l₂ <:+ l) :
    SKFree l₂ :=
  fun t ht => h t (ht.trans hs)

/-- Output of the sk pass is sk-free. -/
lemma SKFree_of_rw_self : ∀ l o, Rw trySK l o → SKFree o := by
  intro l o hrw
  induction hrw with
  | nil =>
    intro t ht
    rw [List.suffix_nil.mp ht]
    rfl
  | copy hnone hrw₂ ih =>
    rename_i c l' o'
    intro t ht
    rcases List.suffix_cons_iff.mp ht with ht | ht
    · subst ht
      by_contra hsome
      obtain ⟨r, n, hsk⟩ : ∃ r n, trySK (c :: o') = some (r, n) := by
        cases hx : trySK (c :: o') with
        | none => exact absurd hx hsome
        | some rn =>
          obtain ⟨a, b⟩ := rn
          exact ⟨a, b, rfl⟩
      obtain ⟨r₂, n₂, h₂⟩ := trySK_pullback trySK trySK_repl_bracket (c :: l') (c :: o')
        (Rw.copy hnone hrw₂) r n hsk
      rw [hnone] at h₂
      exact absurd h₂ (by simp)
    · exact ih t ht
  | repl hm hne hrw₂ ih =>
    rename_i l₀ o₀ r n
    intro t ht
    have hr : r = "[REDACTED KEY]".data := (trySK_some_repl l₀ r n hm).1
    rcases suffix_append_cases t r o₀ ht with ht | ⟨rs, h1, h2, h3⟩
    · exact ih t ht
    · subst h3
      exact trySK_crossing_repl rs o₀ (hr ▸ h1) h2

/-- sk-freeness is preserved by any rewrite whose replacement texts start
with `[` and contain no sk match start. -/
lemma SKFree_of_rw_preserved (tryM : List Char → Option (List Char × Nat))
    (hrepl : ∀ l r n, tryM l = some (r, n) → ∃ r', r = '[' :: r')
    (hcross : ∀ l r n, tryM l = some (r, n) →
      ∀ rs z, rs <:+ r → rs ≠ [] → trySK (rs ++ z) = none) :
    ∀ l o, Rw tryM l o → SKFree l → SKFree o := by
  intro l o hrw
  induction hrw with
  | nil => exact id
  | copy hnone hrw₂ ih =>
    rename_i c l' o'
    intro hfree t ht
    rcases List.suffix_cons_iff.mp ht with ht | ht
    · subst ht
      by_contra hsome
      obtain ⟨r, n, hsk⟩ : ∃ r n, trySK (c :: o') = some (r, n) := by
        cases hx : trySK (c :: o') with
        | none => exact absurd hx hsome
        | some rn =>
          obtain ⟨a, b⟩ := rn
          exact ⟨a, b, rfl⟩
      obtain ⟨r₂, n₂, h₂⟩ := trySK_pullback tryM hrepl (c :: l') (c :: o')
        (Rw.copy hnone hrw₂) r n hsk
      rw [hfree (c :: l') (List.suffix_refl _)] at h₂
      exact absurd h₂ (by simp)
    · exact ih (SKFree_restrict hfree (List.suffix_cons c l')) t ht
  | repl hm hne hrw₂ ih =>
    rename_i l₀ o₀ r n
    intro hfree t ht
    rcases suffix_append_cases t r o₀ ht with ht | ⟨rs, h1, h2, h3⟩
    · exact ih (SKFree_restrict hfree (List.drop_suffix _ _)) t ht
    · subst h3
      exact hcross l₀ r n hm rs o₀ h1 h2

/-! ### The jwt pattern -/

lemma jwtClass_no_bracket (ch : Char) (h : jwtClass ch = true) : ch ≠ '[' := by
  intro hc
  subst hc
  simp [jwtClass, Char.isAlpha, Char.isUpper, Char.isLower, Char.isDigit] at h

lemma tryJWT_some_repl (l r : List Char) (n : Nat) (h : tryJWT l = some (r, n)) :
    r = "[REDACTED JWT]".data := by
  unfold tryJWT at h
  simp only [] at h
  split at h
  case isFalse => simp at h
  case isTrue =>
    split at h
    case isTrue => simp at h
    case isFalse =>
      split at h
      case h_2 => simp at h
      case h_1 =>
        split at h
        case isTrue => simp at h
        case isFalse =>
          split at h
          case h_1 =>
            obtain ⟨h1, _⟩ := Prod.mk.injEq .. ▸ (Option.some.injEq _ _).mp h
            exact h1.symm
          case h_2 =>
            obtain ⟨h1, _⟩ := Prod.mk.injEq .. ▸ (Option.some.injEq _ _).mp h
            exact h1.symm

lemma tryJWT_repl_bracket : ∀ l r n, tryJWT l = some (r, n) → ∃ r', r = '[' :: r' := by
  intro l r n h
  rw [tryJWT_some_repl l r n h]
  exact ⟨_, rfl⟩

lemma tryJWT_none_of_head (c : Char) (z : List Char) (hc : c ≠ 'e') :
    tryJWT (c :: z) = none := by
  unfold tryJWT
  rw [if_neg ?_]
  intro h
  rw [List.isPrefixOf_iff_prefix] at h
  exact hc ((List.cons_prefix_cons.mp h).1).symm

/-- The leading shape forced by a jwt match. -/
lemma tryJWT_decomp (o r : List Char) (n : Nat) (h : tryJWT o = some (r, n)) :
    ∃ run1 v₀ rest, o = 'e' :: 'y' :: 'J' :: (run1 ++ '.' :: v₀ :: rest) ∧
      run1 ≠ [] ∧ (∀ ch ∈ run1, jwtClass ch = true) ∧ jwtClass v₀ = true := by
  unfold tryJWT at h
  simp only [] at h
  split at h
  case isFalse => simp at h
  case isTrue hpre =>
    split at h
    case isTrue => simp at h
    case isFalse hrun1 =>
      split at h
      case h_2 => simp at h
      case h_1 r2x hdrop =>
        have hrun2 : (r2x.takeWhile jwtClass).length ≠ 0 := by
          intro h0
          rw [if_pos h0] at h
          simp at h
        cases hr2 : r2x with
        | nil =>
          rw [hr2] at hrun2
          simp at hrun2
        | cons v₀ rest =>
          have hv : jwtClass v₀ = true := by
            by_contra hv
            apply hrun2
            rw [hr2]
            simp [List.takeWhile, hv]
          set r1 := o.drop 3 with hr1
          set run1 := r1.takeWhile jwtClass with hrundef
          obtain ⟨t4, ht4⟩ := List.takeWhile_prefix (p := jwtClass) (l := r1)
          rw [← hrundef] at ht4
          have ht4d : r1.drop run1.length = t4 := by
            rw [← ht4]
            exact List.drop_left _ _
          rw [ht4d] at hdrop
          obtain ⟨t3, ht3⟩ := List.isPrefixOf_iff_prefix.mp hpre
          have hd3 : r1 = t3 := by
            rw [hr1, ← ht3]
            rfl
          refine ⟨run1, v₀, rest, ?_, ?_, ?_, hv⟩
          · rw [← ht3, ← hd3, ← ht4, hdrop, hr2]
            rfl
          · intro h0
            apply hrun1
            rw [h0]
            rfl
          · intro ch hch
            rw [hrundef] at hch
            exact List.mem_takeWhile_imp hch

/-- A list with the jwt leading shape matches. -/
lemma tryJWT_of_shape (run1 : List Char) (v₀ : Char) (tail : List Char)
    (h1 : run1 ≠ []) (hall : ∀ ch ∈ run1, jwtClass ch = true) (hv : jwtClass v₀ = true) :
    ∃ r n, tryJWT ('e' :: 'y' :: 'J' :: (run1 ++ '.' :: v₀ :: tail)) = some (r, n) := by
  suffices hs : (tryJWT ('e' :: 'y' :: 'J' :: (run1 ++ '.' :: v₀ :: tail))).isSome = true by
    obtain ⟨⟨a, b⟩, hab⟩ := Option.isSome_iff_exists.mp hs
    exact ⟨a, b, hab⟩
  unfold tryJWT
  simp only []
  rw [if_pos (show ("eyJ".data.isPrefixOf
      ('e' :: 'y' :: 'J' :: (run1 ++ '.' :: v₀ :: tail))) = true by
    rw [List.isPrefixOf_iff_prefix]
    exact ⟨run1 ++ '.' :: v₀ :: tail, rfl⟩)]
  have hd3 : ('e' :: 'y' :: 'J' :: (run1 ++ '.' :: v₀ :: tail)).drop 3
      = run1 ++ '.' :: v₀ :: tail := rfl
  rw [hd3]
  have htw : (run1 ++ '.' :: v₀ :: tail).takeWhile jwtClass = run1 := by
    rw [takeWhile_append_all jwtClass run1 _ hall]
    have h0 : ('.' :: v₀ :: tail).takeWhile jwtClass = [] := rfl
    rw [h0, List.append_nil]
  rw [htw]
  rw [if_neg (fun h0 => h1 (List.length_eq_zero.mp h0))]
  rw [List.drop_left]
  split
  case h_1 r2 heq =>
    have hr2 : r2 = v₀ :: tail := by
      injection heq with _ h2
      exact h2.symm
    subst hr2
    have htw2 : (v₀ :: tail).takeWhile jwtClass = v₀ :: tail.takeWhile jwtClass := by
      simp [List.takeWhile, hv]
    rw [htw2]
    rw [if_neg (by simp)]
    split
    case h_1 => rfl
    case h_2 => rfl
  case h_2 hno =>
    exact absurd rfl (hno (v₀ :: tail))

/-- Pull back a jwt match along any rewrite whose replacements start `[`. -/
lemma tryJWT_pullback (tryM : List Char → Option (List Char × Nat))
    (hrepl : ∀ l r n, tryM l = some (r, n) → ∃ r', r = '[' :: r')
    (l o : List Char) (hrw : Rw tryM l o) (r : List Char) (n : Nat)
    (h : tryJWT o = some (r, n)) : ∃ r₂ n₂, tryJWT l = some (r₂, n₂) := by
  obtain ⟨run1, v₀, rest, hsh, hne, hall, hv⟩ := tryJWT_decomp o r n h
  have hwpre : 'e' :: 'y' :: 'J' :: (run1 ++ '.' :: [v₀]) <+: o := by
    refine ⟨rest, ?_⟩
    rw [hsh]
    simp
  have hnb : '[' ∉ 'e' :: 'y' :: 'J' :: (run1 ++ '.' :: [v₀]) := by
    intro hm
    simp only [List.mem_cons, List.mem_append] at hm
    rcases hm with h0 | h0 | h0 | h0 | h0
    · exact absurd h0 (by decide)
    · exact absurd h0 (by decide)
    · exact absurd h0 (by decide)
    · exact jwtClass_no_bracket '[' (hall '[' h0) rfl
    · rcases h0 with h0 | h0 | h0
      · exact absurd h0 (by decide)
      · exact jwtClass_no_bracket v₀ hv h0.symm
      · simp at h0
  obtain ⟨hpre, _⟩ := rw_prefix_pullback tryM hrepl _ l o hrw hwpre hnb
  obtain ⟨tail, htail⟩ := hpre
  have hl : l = 'e' :: 'y' :: 'J' :: (run1 ++ '.' :: v₀ :: tail) := by
    rw [← htail]
    simp
  rw [hl]
  exact tryJWT_of_shape run1 v₀ tail hne hall hv

/-- No jwt match starts inside a suffix of an `e`-less replacement text. -/
lemma tryJWT_crossing_list (R : List Char) (hR : ∀ c ∈ R, c ≠ 'e')
    (rs z : List Char) (hs : rs <:+ R) (hne : rs ≠ []) : tryJWT (rs ++ z) = none := by
  cases rs with
  | nil => exact absurd rfl hne
  | cons c rs' =>
    rw [List.cons_append]
    exact tryJWT_none_of_head c (rs' ++ z) (hR c (hs.subset (List.mem_cons_self c rs')))


lemma JWTFree_restrict {l : List Char} (h : JWTFree l) {l₂ : List Char} (hs : l₂ <:+ l) :
    JWTFree l₂ :=
  fun t ht => h t (ht.trans hs)

/-- Output of the jwt pass is jwt-free. -/
lemma JWTFree_of_rw_self : ∀ l o, Rw tryJWT l o → JWTFree o := by
  intro l o hrw
  induction hrw with
  | nil =>
    intro t ht
    rw [List.suffix_nil.mp ht]
    rfl
  | copy hnone hrw₂ ih =>
    rename_i c l' o'
    intro t ht
    rcases List.suffix_cons_iff.mp ht with ht | ht
    · subst ht
      by_contra hsome
      obtain ⟨r, n, hjw⟩ : ∃ r n, tryJWT (c :: o') = some (r, n) := by
        cases hx : tryJWT (c :: o') with
        | none => exact absurd hx hsome
        | some rn =>
          obtain ⟨a, b⟩ := rn
          exact ⟨a, b, rfl⟩
      obtain ⟨r₂, n₂, h₂⟩ := tryJWT_pullback tryJWT tryJWT_repl_bracket (c :: l') (c :: o')
        (Rw.copy hnone hrw₂) r n hjw
      rw [hnone] at h₂
      exact absurd h₂ (by simp)
    · exact ih t ht
  | repl hm hne hrw₂ ih =>
    rename_i l₀ o₀ r n
    intro t ht
    have hr : r = "[REDACTED JWT]".data := tryJWT_some_repl l₀ r n hm
    rcases suffix_append_cases t r o₀ ht with ht | ⟨rs, h1, h2, h3⟩
    · exact ih t ht
    · subst h3
      exact tryJWT_crossing_list r (by rw [hr]; decide) rs o₀ h1 h2

/-- jwt-freeness is preserved by any rewrite whose replacement texts start
with `[` and contain no `e`. -/
lemma JWTFree_of_rw_preserved (tryM : List Char → Option (List Char × Nat))
    (hrepl : ∀ l r n, tryM l = some (r, n) → ∃ r', r = '[' :: r')
    (hcross : ∀ l r n, tryM l = some (r, n) → ∀ c ∈ r, c ≠ 'e') :
    ∀ l o, Rw tryM l o → JWTFree l → JWTFree o := by
  intro l o hrw
  induction hrw with
  | nil => exact id
  | copy hnone hrw₂ ih =>
    rename_i c l' o'
    intro hfree t ht
    rcases List.suffix_cons_iff.mp ht with ht | ht
    · subst ht
      by_contra hsome
      obtain ⟨r, n, hjw⟩ : ∃ r n, tryJWT (c :: o') = some (r, n) := by
        cases hx : tryJWT (c :: o') with
        | none => exact absurd hx hsome
        | some rn =>
          obtain ⟨a, b⟩ := rn
          exact ⟨a, b, rfl⟩
      obtain ⟨r₂, n₂, h₂⟩ := tryJWT_pullback tryM hrepl (c :: l') (c :: o')
        (Rw.copy hnone hrw₂) r n hjw
      rw [hfree (c :: l') (List.suffix_refl _)] at h₂
      exact absurd h₂ (by simp)
    · exact ih (JWTFree_restrict hfree (List.suffix_cons c l')) t ht
  | repl hm hne hrw₂ ih =>
    rename_i l₀ o₀ r n
    intro hfree t ht
    rcases suffix_append_cases t r o₀ ht with ht | ⟨rs, h1, h2, h3⟩
    · exact ih (JWTFree_restrict hfree (List.drop_suffix _ _)) t ht
    · subst h3
      exact tryJWT_crossing_list r (hcross l₀ r n hm) rs o₀ h1 h2

/-! ### The pk pattern -/

lemma pkRunChar_no_bracket (ch : Char) (h : pkRunChar ch = true) : ch ≠ '[' := by
  intro hc
  subst hc
  simp [pkRunChar, Char.isAlpha, Char.isUpper, Char.isLower] at h

lemma startsWithCI_append_self : ∀ p t : List Char, startsWithCI p (p ++ t) = true := by
  intro p
  induction p with
  | nil => intro t; rfl
  | cons a p' ih =>
    intro t
    simp only [List.cons_append, startsWithCI, Bool.and_eq_true, decide_eq_true_eq]
    exact ⟨trivial, ih t⟩

/-- ci-matched text over a pattern of non-letter runes is the pattern itself. -/
lemma startsWithCI_exact (p q : List Char) (h : startsWithCI p q = true)
    (hp : ∀ c ∈ p, c.toLower = c ∧ (c.toNat < 97 ∨ 122 < c.toNat)) :
    q.take p.length = p := by
  induction p generalizing q with
  | nil => rfl
  | cons a p' ih =>
    cases q with
    | nil => simp [startsWithCI] at h
    | cons c q' =>
      simp only [startsWithCI, Bool.and_eq_true, decide_eq_true_eq] at h
      obtain ⟨ha1, ha2⟩ := hp a (List.mem_cons_self a p')
      have hc : c = a := toLower_eq_self_of_small c a (h.1.symm.trans ha1) ha2
      simp only [List.length_cons, List.take_succ_cons, hc]
      rw [ih q' h.2 (fun d hd => hp d (List.mem_cons_of_mem a hd))]

lemma tryPK_some_repl (l r : List Char) (n : Nat) (h : tryPK l = some (r, n)) :
    r = "[REDACTED PRIVATE KEY]".data := by
  unfold tryPK at h
  split at h
  case isFalse => simp at h
  case isTrue =>
    split at h
    case h_1 => simp at h
    case h_2 =>
      split at h
      case h_1 => simp at h
      case h_2 =>
        obtain ⟨h1, _⟩ := Prod.mk.injEq .. ▸ (Option.some.injEq _ _).mp h
        exact h1.symm

lemma tryPK_repl_bracket : ∀ l r n, tryPK l = some (r, n) → ∃ r', r = '[' :: r' := by
  intro l r n h
  rw [tryPK_some_repl l r n h]
  exact ⟨_, rfl⟩

lemma tryPK_none_of_head (c : Char) (z : List Char) (hc : c.toLower ≠ '-') :
    tryPK (c :: z) = none := by
  unfold tryPK
  rw [if_neg ?_]
  intro h
  simp only [startsWithCI, Bool.and_eq_true, decide_eq_true_eq] at h
  exact hc (by simpa using h.1.symm)

lemma pkHeaderTail_some (x : List Char) (hn : Nat) (h : pkHeaderTail x = some hn) :
    11 ≤ (x.takeWhile pkRunChar).length ∧
    ((x.takeWhile pkRunChar).drop ((x.takeWhile pkRunChar).length - 11)).map Char.toLower
      = "private key".data ∧
    startsWithCI "-----".data (x.drop (x.takeWhile pkRunChar).length) = true ∧
    hn = (x.takeWhile pkRunChar).length + 5 := by
  unfold pkHeaderTail at h
  simp only [] at h
  split at h
  case isTrue hc =>
    obtain ⟨h1, h2, h3⟩ := hc
    exact ⟨h1, h2, h3, ((Option.some.injEq _ _).mp h).symm⟩
  case isFalse => simp at h

lemma pkHeaderTail_build (run t : List Char) (hall : ∀ c ∈ run, pkRunChar c = true)
    (h11 : 11 ≤ run.length)
    (hpk : (run.drop (run.length - 11)).map Char.toLower = "private key".data) :
    pkHeaderTail (run ++ "-----".data ++ t) = some (run.length + 5) := by
  unfold pkHeaderTail
  simp only []
  have htw : ((run ++ "-----".data ++ t).takeWhile pkRunChar) = run := by
    rw [List.append_assoc, takeWhile_append_all pkRunChar run _ hall]
    have h0 : (("-----".data ++ t).takeWhile pkRunChar) = [] := rfl
    rw [h0, List.append_nil]
  rw [htw]
  rw [if_pos ?_]
  case _ =>
    refine ⟨h11, hpk, ?_⟩
    rw [List.append_assoc, List.drop_left]
    exact startsWithCI_append_self "-----".data t

lemma tryEndHeader_build (run t : List Char) (E9 : List Char) (hE9 : E9.length = 9)
    (hsw : startsWithCI "-----end ".data (E9 ++ run ++ "-----".data ++ t) = true)
    (hall : ∀ c ∈ run, pkRunChar c = true) (h11 : 11 ≤ run.length)
    (hpk : (run.drop (run.length - 11)).map Char.toLower = "private key".data) :
    tryEndHeader (E9 ++ run ++ "-----".data ++ t) = some (9 + (run.length + 5)) := by
  unfold tryEndHeader
  rw [if_pos hsw]
  have hd9 : (E9 ++ run ++ "-----".data ++ t).drop 9 = run ++ "-----".data ++ t := by
    rw [List.append_assoc, List.append_assoc, ← hE9, List.drop_left, ← List.append_assoc]
  rw [hd9, pkHeaderTail_build run t hall h11 hpk]

lemma findEnd_some (v : List Char) (j en : Nat) (h : findEnd v = some (j, en)) :
    tryEndHeader (v.drop j) = some en := by
  induction v generalizing j en with
  | nil => simp [findEnd] at h
  | cons c cs ih =>
    unfold findEnd at h
    split at h
    case h_1 m hm =>
      obtain ⟨hj, hen⟩ := Prod.mk.injEq .. ▸ (Option.some.injEq _ _).mp h
      rw [← hj, ← hen]
      exact hm
    case h_2 hm =>
      split at h
      case h_1 j' n' hfe =>
        obtain ⟨hj, hen⟩ := Prod.mk.injEq .. ▸ (Option.some.injEq _ _).mp h
        rw [← hj, ← hen]
        exact ih j' n' hfe
      case h_2 => simp at h

lemma findEnd_of_drop (v : List Char) (p m : Nat)
    (h : tryEndHeader (v.drop p) = some m) : ∃ jx ex, findEnd v = some (jx, ex) := by
  induction v generalizing p with
  | nil =>
    rw [List.drop_nil] at h
    unfold tryEndHeader at h
    rw [if_neg (by rw [startsWithCI]; simp)] at h
    simp at h
  | cons c cs ih =>
    unfold findEnd
    cases hE : tryEndHeader (c :: cs) with
    | some nx => exact ⟨0, nx, rfl⟩
    | none =>
      cases p with
      | zero =>
        rw [List.drop_zero] at h
        rw [hE] at h
        simp at h
      | succ p' =>
        have hd : (c :: cs).drop (p' + 1) = cs.drop p' := rfl
        rw [hd] at h
        obtain ⟨jx, ex, hfe⟩ := ih p' h
        rw [hfe]
        exact ⟨jx + 1, ex, rfl⟩

lemma tryPK_build (l : List Char) (hs : startsWithCI "-----begin ".data l = true)
    (hn : Nat) (h1 : pkHeaderTail (l.drop 11) = some hn)
    (j en : Nat) (h2 : findEnd (l.drop (11 + hn)) = some (j, en)) :
    tryPK l = some ("[REDACTED PRIVATE KEY]".data, 11 + hn + j + en) := by
  unfold tryPK
  rw [if_pos hs]
  split
  case h_1 hnone => rw [h1] at hnone; simp at hnone
  case h_2 hn' hsome =>
    rw [h1] at hsome
    have hhn : hn' = hn := by
      injection hsome with h3
      exact h3.symm
    subst hhn
    split
    case h_1 hnone => rw [h2] at hnone; simp at hnone
    case h_2 j' en' hsome2 =>
      rw [h2] at hsome2
      obtain ⟨hj, hen⟩ := Prod.mk.injEq .. ▸ (Option.some.injEq _ _).mp hsome2
      rw [hj, hen]

lemma startsWithCI_head_exact (p q : List Char) (h : startsWithCI p q = true)
    (c : Char) (hp : p.head? = some c)
    (hc : c.toLower = c ∧ (c.toNat < 97 ∨ 122 < c.toNat)) :
    ∃ q', q = c :: q' := by
  cases p with
  | nil => simp at hp
  | cons a p' =>
    have hac : a = c := by
      injection hp
    subst hac
    cases q with
    | nil => simp [startsWithCI] at h
    | cons d q' =>
      simp only [startsWithCI, Bool.and_eq_true, decide_eq_true_eq] at h
      exact ⟨q', by rw [toLower_eq_self_of_small d a (h.1.symm.trans hc.1) hc.2]⟩

/-- Pull back a pk match along any rewrite whose replacements start `[`
and contain no `-`. -/
lemma tryPK_pullback (tryM : List Char → Option (List Char × Nat))
    (hrepl : ∀ l r n, tryM l = some (r, n) → ∃ r', r = '[' :: r')
    (hstart : ∀ l r n, tryM l = some (r, n) → '-' ∉ r)
    (l o : List Char) (hrw : Rw tryM l o) (rx : List Char) (nx : Nat)
    (h : tryPK o = some (rx, nx)) : ∃ r₂ n₂, tryPK l = some (r₂, n₂) := by
  unfold tryPK at h
  split at h
  case isFalse => simp at h
  case isTrue hsw =>
    split at h
    case h_1 => simp at h
    case h_2 hn hPH =>
      split at h
      case h_1 => simp at h
      case h_2 j en hFE =>
        clear h
        -- decompose the begin header region of o
        set runb := ((o.drop 11).takeWhile pkRunChar) with hrunb
        obtain ⟨h11b, hpkb, hswD, hhn⟩ := pkHeaderTail_some (o.drop 11) hn hPH
        rw [← hrunb] at h11b hpkb hswD hhn
        have hallb : ∀ c ∈ runb, pkRunChar c = true := by
          intro c hc
          rw [hrunb] at hc
          exact List.mem_takeWhile_imp hc
        have hol : 11 ≤ o.length := by
          have h0 := startsWithCI_length "-----begin ".data o hsw
          have h1 : ("-----begin ".data).length = 11 := rfl
          rw [h1] at h0
          exact h0
        have hA11 : (o.take 11).length = 11 := by
          simp only [List.length_take]
          omega
        obtain ⟨q, hq⟩ : runb <+: o.drop 11 := by
          rw [hrunb]
          exact List.takeWhile_prefix _
        have hqd : (o.drop 11).drop runb.length = q := by
          rw [← hq]
          exact List.drop_left _ _
        rw [hqd] at hswD
        have hq5 : "-----".data ++ q.drop 5 = q := by
          have hx := startsWithCI_exact "-----".data q hswD (by decide)
          conv_rhs => rw [← List.take_append_drop 5 q]
          rw [← hx]
          rfl
        have hwbo : (o.take 11 ++ runb ++ "-----".data) ++ q.drop 5 = o := by
          rw [List.append_assoc, List.append_assoc, hq5, hq]
          exact List.take_append_drop 11 o
        have hnbB : '[' ∉ o.take 11 ++ runb ++ "-----".data := by
          intro hm
          rcases List.mem_append.mp hm with hm | hm
          · rcases List.mem_append.mp hm with hm | hm
            · have h0 := startsWithCI_no_bracket "-----begin ".data o hsw (by decide)
              have h1 : ("-----begin ".data).length = 11 := rfl
              rw [h1] at h0
              exact h0 hm
            · exact pkRunChar_no_bracket '[' (hallb '[' hm) rfl
          · exact absurd hm (by decide)
        obtain ⟨hpreB, hrwT⟩ := rw_prefix_pullback tryM hrepl
          (o.take 11 ++ runb ++ "-----".data) l o hrw ⟨q.drop 5, hwbo⟩ hnbB
        have hwblen : (o.take 11 ++ runb ++ "-----".data).length = 11 + hn := by
          have h5 : ("-----".data).length = 5 := rfl
          simp only [List.length_append, hA11, h5]
          omega
        rw [hwblen] at hrwT
        obtain ⟨tl, htl⟩ := hpreB
        -- the begin header on the input side
        have hleq : l = o.take 11 ++ (runb ++ "-----".data ++ tl) := by
          rw [← htl]
          simp [List.append_assoc]
        have htakel : l.take 11 = o.take 11 := by
          rw [hleq, List.take_left' hA11]
        have hswl : startsWithCI "-----begin ".data l = true := by
          rw [startsWithCI_congr "-----begin ".data l o ?_]
          · exact hsw
          · exact htakel
        have hdl11 : l.drop 11 = runb ++ "-----".data ++ tl := by
          rw [hleq, List.drop_left' hA11]
        have hPHl : pkHeaderTail (l.drop 11) = some hn := by
          rw [hdl11, hhn]
          exact pkHeaderTail_build runb tl hallb h11b hpkb
        -- decompose the end header region of o
        have hTE := findEnd_some (o.drop (11 + hn)) j en hFE
        unfold tryEndHeader at hTE
        split at hTE
        case isFalse => simp at hTE
        case isTrue hswE =>
          split at hTE
          case h_2 => simp at hTE
          case h_1 n9 hPH2 =>
            clear hTE
            set e := (o.drop (11 + hn)).drop j with he
            set rune := ((e.drop 9).takeWhile pkRunChar) with hrune
            obtain ⟨h11e, hpke, hswD2, hn9⟩ := pkHeaderTail_some (e.drop 9) n9 hPH2
            rw [← hrune] at h11e hpke hswD2 hn9
            have halle : ∀ c ∈ rune, pkRunChar c = true := by
              intro c hc
              rw [hrune] at hc
              exact List.mem_takeWhile_imp hc
            have hel : 9 ≤ e.length := by
              have h0 := startsWithCI_length "-----end ".data e hswE
              have h1 : ("-----end ".data).length = 9 := rfl
              rw [h1] at h0
              exact h0
            have hE9 : (e.take 9).length = 9 := by
              simp only [List.length_take]
              omega
            obtain ⟨q2, hq2⟩ : rune <+: e.drop 9 := by
              rw [hrune]
              exact List.takeWhile_prefix _
            have hq2d : (e.drop 9).drop rune.length = q2 := by
              rw [← hq2]
              exact List.drop_left _ _
            rw [hq2d] at hswD2
            have hq25 : "-----".data ++ q2.drop 5 = q2 := by
              have hx := startsWithCI_exact "-----".data q2 hswD2 (by decide)
              conv_rhs => rw [← List.take_append_drop 5 q2]
              rw [← hx]
              rfl
            have hweo : (e.take 9 ++ rune ++ "-----".data) ++ q2.drop 5 = e := by
              rw [List.append_assoc, List.append_assoc, hq25, hq2]
              exact List.take_append_drop 9 e
            have hnbE : '[' ∉ e.take 9 ++ rune ++ "-----".data := by
              intro hm
              rcases List.mem_append.mp hm with hm | hm
              · rcases List.mem_append.mp hm with hm | hm
                · have h0 := startsWithCI_no_bracket "-----end ".data e hswE (by decide)
                  have h1 : ("-----end ".data).length = 9 := rfl
                  rw [h1] at h0
                  exact h0 hm
                · exact pkRunChar_no_bracket '[' (halle '[' hm) rfl
              · exact absurd hm (by decide)
            obtain ⟨e', hee⟩ := startsWithCI_head_exact "-----end ".data e hswE '-'
              rfl (by decide)
            have h9 : e.take 9 = '-' :: e'.take 8 := by
              rw [hee]
              rfl
            have hwh : (e.take 9 ++ rune ++ "-----".data).head? = some '-' := by
              rw [h9]
              rfl
            have hsuf : e <:+ o.drop (11 + hn) := by
              rw [he]
              exact List.drop_suffix j _
            have hinfE : (e.take 9 ++ rune ++ "-----".data) <:+: o.drop (11 + hn) :=
              List.IsInfix.trans (List.IsPrefix.isInfix ⟨q2.drop 5, hweo⟩)
                (List.IsSuffix.isInfix hsuf)
            have hstart2 : ∀ l' r' n', tryM l' = some (r', n') → ∀ c,
                (e.take 9 ++ rune ++ "-----".data).head? = some c → c ∉ r' := by
              intro l' r' n' hm c hcw
              rw [hwh] at hcw
              injection hcw with hcw
              rw [← hcw]
              exact hstart l' r' n' hm
            have hinfL := rw_infix_pullback tryM hrepl
              (e.take 9 ++ rune ++ "-----".data) hnbE hstart2
              (l.drop (11 + hn)) (o.drop (11 + hn)) hrwT hinfE
            obtain ⟨s, u2, hsu⟩ := hinfL
            have hdropS : (l.drop (11 + hn)).drop s.length
                = (e.take 9 ++ rune ++ "-----".data) ++ u2 := by
              rw [← hsu, List.append_assoc, List.drop_left]
            have hswE2 : startsWithCI "-----end ".data
                (e.take 9 ++ rune ++ "-----".data ++ u2) = true := by
              rw [startsWithCI_congr "-----end ".data _ e ?_]
              · exact hswE
              · show (e.take 9 ++ rune ++ "-----".data ++ u2).take 9 = e.take 9
                have hsh2 : e.take 9 ++ rune ++ "-----".data ++ u2
                    = e.take 9 ++ (rune ++ ("-----".data ++ u2)) := by
                  simp [List.append_assoc]
                rw [hsh2, List.take_left' hE9]
            have htryE : tryEndHeader ((l.drop (11 + hn)).drop s.length)
                = some (9 + (rune.length + 5)) := by
              rw [hdropS]
              have hshape : (e.take 9 ++ rune ++ "-----".data) ++ u2
                  = e.take 9 ++ rune ++ "-----".data ++ u2 := by
                simp [List.append_assoc]
              rw [hshape]
              exact tryEndHeader_build rune u2 (e.take 9) hE9 hswE2 halle h11e hpke
            obtain ⟨jx, ex, hfex⟩ := findEnd_of_drop (l.drop (11 + hn)) s.length _ htryE
            exact ⟨_, _, tryPK_build l hswl hn hPHl jx ex hfex⟩

/-- No pk match can start inside a suffix of a dash-free replacement text. -/
lemma tryPK_crossing_list (R : List Char) (hR : ∀ c ∈ R, c.toLower ≠ '-')
    (rs z : List Char) (hs : rs <:+ R) (hne : rs ≠ []) : tryPK (rs ++ z) = none := by
  cases rs with
  | nil => exact absurd rfl hne
  | cons c rs' =>
    rw [List.cons_append]
    exact tryPK_none_of_head c (rs' ++ z) (hR c (hs.subset (List.mem_cons_self c rs')))


lemma PKFree_restrict {l : List Char} (h : PKFree l) {l₂ : List Char} (hs : l₂ <:+ l) :
    PKFree l₂ :=
  fun t ht => h t (ht.trans hs)

/-- Output of the pk pass is pk-free. -/
lemma PKFree_of_rw_self : ∀ l o, Rw tryPK l o → PKFree o := by
  intro l o hrw
  induction hrw with
  | nil =>
    intro t ht
    rw [List.suffix_nil.mp ht]
    rfl
  | copy hnone hrw₂ ih =>
    rename_i c l' o'
    intro t ht
    rcases List.suffix_cons_iff.mp ht with ht | ht
    · subst ht
      by_contra hsome
      obtain ⟨r, n, hpk⟩ : ∃ r n, tryPK (c :: o') = some (r, n) := by
        cases hx : tryPK (c :: o') with
        | none => exact absurd hx hsome
        | some rn =>
          obtain ⟨a, b⟩ := rn
          exact ⟨a, b, rfl⟩
      obtain ⟨r₂, n₂, h₂⟩ := tryPK_pullback tryPK tryPK_repl_bracket
        (fun l r n hm => by
          rw [tryPK_some_repl l r n hm]
          decide)
        (c :: l') (c :: o') (Rw.copy hnone hrw₂) r n hpk
      rw [hnone] at h₂
      exact absurd h₂ (by simp)
    · exact ih t ht
  | repl hm hne hrw₂ ih =>
    rename_i l₀ o₀ r n
    intro t ht
    have hr : r = "[REDACTED PRIVATE KEY]".data := tryPK_some_repl l₀ r n hm
    rcases suffix_append_cases t r o₀ ht with ht | ⟨rs, h1, h2, h3⟩
    · exact ih t ht
    · subst h3
      exact tryPK_crossing_list r (by rw [hr]; decide) rs o₀ h1 h2

/-- pk-freeness is preserved by any rewrite whose replacement texts start
with `[` and contain nothing lowering to `-`. -/
lemma PKFree_of_rw_preserved (tryM : List Char → Option (List Char × Nat))
    (hrepl : ∀ l r n, tryM l = some (r, n) → ∃ r', r = '[' :: r')
    (hcross : ∀ l r n, tryM l = some (r, n) → ∀ c ∈ r, c.toLower ≠ '-') :
    ∀ l o, Rw tryM l o → PKFree l → PKFree o := by
  intro l o hrw
  induction hrw with
  | nil => exact id
  | copy hnone hrw₂ ih =>
    rename_i c l' o'
    intro hfree t ht
    rcases List.suffix_cons_iff.mp ht with ht | ht
    · subst ht
      by_contra hsome
      obtain ⟨r, n, hpk⟩ : ∃ r n, tryPK (c :: o') = some (r, n) := by
        cases hx : tryPK (c :: o') with
        | none => exact absurd hx hsome
        | some rn =>
          obtain ⟨a, b⟩ := rn
          exact ⟨a, b, rfl⟩
      obtain ⟨r₂, n₂, h₂⟩ := tryPK_pullback tryM hrepl
        (fun l₁ r₁ n₁ hm hmem => (hcross l₁ r₁ n₁ hm '-' hmem) rfl)
        (c :: l') (c :: o') (Rw.copy hnone hrw₂) r n hpk
      rw [hfree (c :: l') (List.suffix_refl _)] at h₂
      exact absurd h₂ (by simp)
    · exact ih (PKFree_restrict hfree (List.suffix_cons c l')) t ht
  | repl hm hne hrw₂ ih =>
    rename_i l₀ o₀ r n
    intro hfree t ht
    rcases suffix_append_cases t r o₀ ht with ht | ⟨rs, h1, h2, h3⟩
    · exact ih (PKFree_restrict hfree (List.drop_suffix _ _)) t ht
    · subst h3
      exact tryPK_crossing_list r (hcross l₀ r n hm) rs o₀ h1 h2

/-! ### The kv pattern -/

lemma startsWithCI_lower_take (p l : List Char) (h : startsWithCI p l = true) :
    (l.take p.length).map Char.toLower = p.map Char.toLower := by
  have h2 := (startsWithCI_iff_lower p l).mp h
  rw [List.isPrefixOf_iff_prefix] at h2
  have h3 := prefix_eq_take _ _ h2
  rw [List.length_map] at h3
  rw [← List.map_take] at h3
  exact h3

lemma startsWithCI_of_lower_take (p l : List Char) (hlen : p.length ≤ l.length)
    (h : (l.take p.length).map Char.toLower = p.map Char.toLower) :
    startsWithCI p l = true := by
  rw [startsWithCI_iff_lower, List.isPrefixOf_iff_prefix]
  refine ⟨(l.drop p.length).map Char.toLower, ?_⟩
  rw [← h, ← List.map_append, List.take_append_drop]

lemma toLower_of_space (c : Char) (h : reIsSpace c = true) : c.toLower = c := by
  have h2 : (((c = ' ' ∨ c = '\t') ∨ c = '\n') ∨ c = '\x0c') ∨ c = '\r' := by
    simpa [reIsSpace] using h
  rcases h2 with (((h2 | h2) | h2) | h2) | h2 <;> rw [h2] <;> decide

lemma kvKeywords_char_facts : ∀ k ∈ kvKeywords, ∀ d ∈ k, d.toLower = d ∧
    reIsSpace d = false ∧ d ≠ ':' ∧ d ≠ '=' ∧ d ≠ '[' ∧ d ≠ '"' ∧ d ≠ '\'' := by
  decide

lemma kvKeywords_lower_fixed : ∀ k ∈ kvKeywords, k.map Char.toLower = k := by
  decide

lemma kvKeywords_ne_nil : ∀ k ∈ kvKeywords, k ≠ [] := by
  decide

lemma kvKeywords_prefix_eq : ∀ k₁ ∈ kvKeywords, ∀ k₂ ∈ kvKeywords,
    k₁ = k₂.take k₁.length → k₁ = k₂ := by
  decide

lemma kvKeywords_no_proper_suffix : ∀ k ∈ kvKeywords, ∀ k₂ ∈ kvKeywords,
    ∀ d, d < k.length → 1 ≤ d → k.drop d ≠ k₂ := by
  decide

lemma kvKeywords_no_interior_part : ∀ k ∈ kvKeywords, ∀ i, i < k.length → 1 ≤ i →
    ∀ w ∈ kvKeywords, w ≠ (k.drop i).take w.length := by
  decide

/-- facts about any rune whose lowering is a kv keyword rune. -/
lemma ch_of_ci_kwchar (ch d : Char) (hlow : ch.toLower = d)
    (hd : d.toLower = d ∧ reIsSpace d = false ∧ d ≠ ':' ∧ d ≠ '=' ∧ d ≠ '[' ∧
      d ≠ '"' ∧ d ≠ '\'') :
    reIsSpace ch = false ∧ ch ≠ ':' ∧ ch ≠ '=' ∧ ch ≠ '[' ∧ kvValueChar ch = true := by
  obtain ⟨hd0, hd1, hd2, hd3, hd4, hd5, hd6⟩ := hd
  have hws : reIsSpace ch = false := by
    by_contra hx
    have hx' : reIsSpace ch = true := by simpa using hx
    have h2 : ch.toLower = ch := toLower_of_space ch hx'
    rw [h2] at hlow
    rw [hlow] at hx'
    rw [hd1] at hx'
    exact absurd hx' (by simp)
  have hcol : ch ≠ ':' := by
    intro h
    rw [h] at hlow
    rw [show (':').toLower = ':' from by decide] at hlow
    exact hd2 hlow.symm
  have heqs : ch ≠ '=' := by
    intro h
    rw [h] at hlow
    rw [show ('=').toLower = '=' from by decide] at hlow
    exact hd3 hlow.symm
  have hbr : ch ≠ '[' := by
    intro h
    rw [h] at hlow
    rw [show ('[').toLower = '[' from by decide] at hlow
    exact hd4 hlow.symm
  have hq1 : ch ≠ '"' := by
    intro h
    rw [h] at hlow
    rw [show ('"').toLower = '"' from by decide] at hlow
    exact hd5 hlow.symm
  have hq2 : ch ≠ '\'' := by
    intro h
    rw [h] at hlow
    rw [show ('\'').toLower = '\'' from by decide] at hlow
    exact hd6 hlow.symm
  refine ⟨hws, hcol, heqs, hbr, ?_⟩
  simp [kvValueChar, hws, hq1, hq2]

lemma findKw_some : ∀ (ks : List (List Char)) (l : List Char) (k : List Char),
    findKw ks l = some k → k ∈ ks ∧ startsWithCI k l = true := by
  intro ks
  induction ks with
  | nil => intro l k h; simp [findKw] at h
  | cons k0 ks' ih =>
    intro l k h
    unfold findKw at h
    split at h
    case isTrue hsw =>
      have hk : k0 = k := by injection h
      rw [← hk]
      exact ⟨List.mem_cons_self _ _, hsw⟩
    case isFalse =>
      obtain ⟨h1, h2⟩ := ih l k h
      exact ⟨List.mem_cons_of_mem _ h1, h2⟩

lemma findKw_first_gen : ∀ (ks : List (List Char)) (l : List Char) (kw : List Char),
    kw ∈ ks → startsWithCI kw l = true →
    (∀ w ∈ ks, startsWithCI w l = true → w = kw) → findKw ks l = some kw := by
  intro ks
  induction ks with
  | nil => intro l kw hmem; simp at hmem
  | cons k0 ks' ih =>
    intro l kw hmem hsw hother
    unfold findKw
    by_cases h0 : startsWithCI k0 l = true
    · rw [if_pos h0, hother k0 (List.mem_cons_self _ _) h0]
    · rw [if_neg h0]
      rcases List.mem_cons.mp hmem with hmem | hmem
      · exact absurd (hmem ▸ hsw) h0
      · exact ih l kw hmem hsw (fun w hw => hother w (List.mem_cons_of_mem _ hw))

/-- The components forced by a kv match. -/
lemma tryKV_decomp (l r : List Char) (n : Nat) (h : tryKV l = some (r, n)) :
    ∃ kw sep rest3, findKw kvKeywords l = some kw ∧
      (l.drop kw.length).drop ((l.drop kw.length).takeWhile reIsSpace).length
        = sep :: rest3 ∧
      (sep = ':' ∨ sep = '=') ∧
      0 < ((rest3.drop (rest3.takeWhile reIsSpace).length).takeWhile kvValueChar).length ∧
      r = l.take kw.length ++ "=[REDACTED]".data ∧
      n = kw.length + ((l.drop kw.length).takeWhile reIsSpace).length + 1 +
        (rest3.takeWhile reIsSpace).length +
        ((rest3.drop (rest3.takeWhile reIsSpace).length).takeWhile kvValueChar).length := by
  unfold tryKV at h
  split at h
  case h_1 => simp at h
  case h_2 kw hfind =>
    simp only [] at h
    split at h
    case h_2 => simp at h
    case h_1 sep rest3 hrest =>
      split at h
      case isFalse => simp at h
      case isTrue hsep =>
        split at h
        case isFalse => simp at h
        case isTrue hval =>
          obtain ⟨h1, h2⟩ := Prod.mk.injEq .. ▸ (Option.some.injEq _ _).mp h
          exact ⟨kw, sep, rest3, hfind, hrest, hsep, hval, h1.symm, h2.symm⟩

/-- Rebuild a kv match from its components. -/
lemma tryKV_build (l kw : List Char) (sep : Char) (rest3 : List Char)
    (hfind : findKw kvKeywords l = some kw)
    (hrest : (l.drop kw.length).drop ((l.drop kw.length).takeWhile reIsSpace).length
      = sep :: rest3)
    (hsep : sep = ':' ∨ sep = '=')
    (hval : 0 < ((rest3.drop (rest3.takeWhile reIsSpace).length).takeWhile
      kvValueChar).length) :
    tryKV l = some (l.take kw.length ++ "=[REDACTED]".data,
      kw.length + ((l.drop kw.length).takeWhile reIsSpace).length + 1 +
      (rest3.takeWhile reIsSpace).length +
      ((rest3.drop (rest3.takeWhile reIsSpace).length).takeWhile kvValueChar).length) := by
  unfold tryKV
  split
  case h_1 hnone => rw [hfind] at hnone; simp at hnone
  case h_2 kw' hsome =>
    rw [hfind] at hsome
    have hkk : kw' = kw := by
      injection hsome with h3
      exact h3.symm
    subst hkk
    simp only []
    split
    case h_2 hno =>
      rw [hrest] at hno
      simp at hno
    case h_1 sep' rest3' heq =>
      rw [hrest] at heq
      obtain ⟨hs, hr3⟩ := List.cons_eq_cons.mp heq
      subst hs
      subst hr3
      rw [if_pos hsep, if_pos hval]


lemma startsWithCI_cons_inv (p₀ : Char) (pr a : List Char)
    (h : startsWithCI (p₀ :: pr) a = true) :
    ∃ ch z, a = ch :: z ∧ p₀.toLower = ch.toLower := by
  cases a with
  | nil => simp [startsWithCI] at h
  | cons ch z =>
    simp only [startsWithCI, Bool.and_eq_true, decide_eq_true_eq] at h
    exact ⟨ch, z, rfl, h.1⟩

lemma Rw_nil_inv (tryM : List Char → Option (List Char × Nat)) (o : List Char)
    (h : Rw tryM [] o) : o = [] := by
  cases h with
  | nil => rfl
  | repl hm hne hrw => exact absurd rfl hne

/-- Space runs transfer unchanged across a pass with safe heads. -/
lemma kv_ws_walk (tryM : List Char → Option (List Char × Nat)) (hstep : HStep tryM) :
    ∀ a b, Rw tryM a b →
      a.takeWhile reIsSpace = b.takeWhile reIsSpace ∧
      Rw tryM (a.drop (b.takeWhile reIsSpace).length)
        (b.drop (b.takeWhile reIsSpace).length) := by
  intro a b hrw
  induction hrw with
  | nil => exact ⟨rfl, Rw.nil⟩
  | copy hnone hrw₂ ih =>
    rename_i c a' b'
    by_cases hc : reIsSpace c = true
    · obtain ⟨hteq, hrel⟩ := ih
      have ha : (c :: a').takeWhile reIsSpace = c :: a'.takeWhile reIsSpace := by
        simp [List.takeWhile_cons, hc]
      have hb : (c :: b').takeWhile reIsSpace = c :: b'.takeWhile reIsSpace := by
        simp [List.takeWhile_cons, hc]
      refine ⟨?_, ?_⟩
      · rw [ha, hb, hteq]
      · rw [hb]
        simp only [List.length_cons, List.drop_succ_cons]
        exact hrel
    · have ha : (c :: a').takeWhile reIsSpace = [] := by
        simp [List.takeWhile_cons, hc]
      have hb : (c :: b').takeWhile reIsSpace = [] := by
        simp [List.takeWhile_cons, hc]
      refine ⟨by rw [ha, hb], ?_⟩
      rw [hb]
      simp only [List.length_nil, List.drop_zero]
      exact Rw.copy hnone hrw₂
  | repl hm hne hrw₂ ih =>
    rename_i a₀ o₀ r n
    obtain ⟨⟨ch, z, haz, hws, _, _, _⟩, ⟨ch2, z2, hrz, hws2, _, _, _⟩⟩ := hstep a₀ r n hm
    have ha : a₀.takeWhile reIsSpace = [] := by
      rw [haz]
      simp [List.takeWhile_cons, hws]
    have hb : (r ++ o₀).takeWhile reIsSpace = [] := by
      rw [hrz, List.cons_append]
      simp [List.takeWhile_cons, hws2]
    refine ⟨by rw [ha, hb], ?_⟩
    rw [hb]
    simp only [List.length_nil, List.drop_zero]
    exact Rw.repl hm hne hrw₂

/-- A separator on the output side is copied from the input side. -/
lemma kv_sep_walk (tryM : List Char → Option (List Char × Nat)) (hstep : HStep tryM) :
    ∀ a b, Rw tryM a b → ∀ sep b₂, b = sep :: b₂ → (sep = ':' ∨ sep = '=') →
      ∃ a₂, a = sep :: a₂ ∧ Rw tryM a₂ b₂ := by
  intro a b hrw
  cases hrw with
  | nil =>
    intro sep b₂ h
    simp at h
  | copy hnone hrw₂ =>
    rename_i c a' b'
    intro sep b₂ h hsep
    obtain ⟨h1, h2⟩ := List.cons_eq_cons.mp h
    subst h1
    subst h2
    exact ⟨a', rfl, hrw₂⟩
  | repl hm hne hrw₂ =>
    rename_i o₀ r n
    intro sep b₂ h hsep
    obtain ⟨_, ⟨ch2, z2, hrz, _, hc1, hc2, _⟩⟩ := hstep a r n hm
    rw [hrz, List.cons_append] at h
    obtain ⟨h1, _⟩ := List.cons_eq_cons.mp h
    rcases hsep with hsep | hsep <;> rw [hsep] at h1
    · exact absurd h1 hc1
    · exact absurd h1 hc2

/-- A value rune on the output side pulls back to a value rune. -/
lemma kv_val_walk (tryM : List Char → Option (List Char × Nat)) (hstep : HStep tryM) :
    ∀ a b, Rw tryM a b → ∀ v b₂, b = v :: b₂ → kvValueChar v = true →
      ∃ va a₂, a = va :: a₂ ∧ kvValueChar va = true := by
  intro a b hrw
  cases hrw with
  | nil =>
    intro v b₂ h
    simp at h
  | copy hnone hrw₂ =>
    rename_i c a' b'
    intro v b₂ h hv
    obtain ⟨h1, _⟩ := List.cons_eq_cons.mp h
    exact ⟨c, a', rfl, h1 ▸ hv⟩
  | repl hm hne hrw₂ =>
    rename_i o₀ r n
    intro v b₂ h hv
    obtain ⟨⟨ch, z, haz, _, _, _, hvc⟩, _⟩ := hstep a r n hm
    exact ⟨ch, z, haz, hvc⟩

/-- An input region in which no suffix matches is emitted verbatim. -/
lemma rw_copy_forward (tryM : List Char → Option (List Char × Nat)) :
    ∀ (w a b : List Char), Rw tryM (w ++ a) b →
      (∀ i, i < w.length → tryM (w.drop i ++ a) = none) →
      b = w ++ b.drop w.length ∧ Rw tryM a (b.drop w.length) := by
  intro w
  induction w with
  | nil =>
    intro a b hrw _
    exact ⟨by simp, by simpa using hrw⟩
  | cons d w' ih =>
    intro a b hrw hnones
    cases hrw with
    | copy hnone hrw₂ =>
      rename_i b'
      obtain ⟨hb, hrel⟩ := ih a b' hrw₂ (fun i hi => by
        have h0 := hnones (i + 1) (by simpa using hi)
        simpa using h0)
      refine ⟨?_, ?_⟩
      · show d :: b' = (d :: w') ++ (d :: b').drop (d :: w').length
        simp only [List.cons_append, List.length_cons, List.drop_succ_cons]
        rw [← hb]
      · exact hrel
    | repl hm hne hrw₂ =>
      have h0 := hnones 0 (by simp)
      simp only [List.drop_zero] at h0
      rw [h0] at hm
      exact absurd hm (by simp)

lemma hstep_kv : HStep tryKV := by
  intro a r n hm
  obtain ⟨kw, sep, rest3, hfind, hrest, hsep, hval, hr, hn⟩ := tryKV_decomp a r n hm
  obtain ⟨hkmem, hksw⟩ := findKw_some kvKeywords a kw hfind
  have hkne := kvKeywords_ne_nil kw hkmem
  cases hkw : kw with
  | nil => exact absurd hkw hkne
  | cons d kw' =>
    rw [hkw] at hksw
    obtain ⟨ch, z, haz, hci⟩ := startsWithCI_cons_inv d kw' a hksw
    have hdfacts := kvKeywords_char_facts kw hkmem d
      (by rw [hkw]; exact List.mem_cons_self _ _)
    have hchlow : ch.toLower = d := by
      rw [← hdfacts.1, hci]
    obtain ⟨f1, f2, f3, f4, f5⟩ := ch_of_ci_kwchar ch d hchlow hdfacts
    refine ⟨⟨ch, z, haz, f1, f2, f3, f5⟩, ?_⟩
    refine ⟨ch, z.take kw'.length ++ "=[REDACTED]".data, ?_, f1, f2, f3, f5⟩
    rw [hr, haz, hkw]
    rfl

lemma hstep_sk : HStep trySK := by
  intro a r n hm
  have hr := (trySK_some_repl a r n hm).1
  have hsw : startsWithCI "sk-".data a = true := by
    unfold trySK at hm
    simp only [] at hm
    split at hm
    case isTrue hsw => exact hsw
    case isFalse => simp at hm
  obtain ⟨ch, z, haz, hci⟩ := startsWithCI_cons_inv 's' ('k' :: '-' :: []) a hsw
  have hchlow : ch.toLower = 's' := by
    rw [← show ('s').toLower = 's' from by decide, hci]
  obtain ⟨f1, f2, f3, f4, f5⟩ := ch_of_ci_kwchar ch 's' hchlow (by decide)
  refine ⟨⟨ch, z, haz, f1, f2, f3, f5⟩, ?_⟩
  refine ⟨'[', "REDACTED KEY]".data, by rw [hr], ?_, ?_, ?_, ?_⟩ <;> decide

lemma hstep_jwt : HStep tryJWT := by
  intro a r n hm
  obtain ⟨run1, v₀, rest, hsh, _, _, _⟩ := tryJWT_decomp a r n hm
  have hr := tryJWT_some_repl a r n hm
  refine ⟨⟨'e', 'y' :: 'J' :: (run1 ++ '.' :: v₀ :: rest), hsh, ?_, ?_, ?_, ?_⟩, ?_⟩
  · decide
  · decide
  · decide
  · decide
  refine ⟨'[', "REDACTED JWT]".data, by rw [hr], ?_, ?_, ?_, ?_⟩ <;> decide

lemma hstep_pk : HStep tryPK := by
  intro a r n hm
  have hr := tryPK_some_repl a r n hm
  have hsw : startsWithCI "-----begin ".data a = true := by
    unfold tryPK at hm
    split at hm
    case isTrue hsw => exact hsw
    case isFalse => simp at hm
  obtain ⟨ch, z, haz, hci⟩ := startsWithCI_cons_inv '-'
    ('-' :: '-' :: '-' :: '-' :: 'b' :: 'e' :: 'g' :: 'i' :: 'n' :: ' ' :: []) a hsw
  have hchlow : ch.toLower = '-' := by
    rw [← show ('-').toLower = '-' from by decide, hci]
  obtain ⟨f1, f2, f3, f4, f5⟩ := ch_of_ci_kwchar ch '-' hchlow (by decide)
  refine ⟨⟨ch, z, haz, f1, f2, f3, f5⟩, ?_⟩
  refine ⟨'[', "REDACTED PRIVATE KEY]".data, by rw [hr], ?_, ?_, ?_, ?_⟩ <;> decide

/-- No kv match can begin at a rune that is not a value rune. -/
lemma tryKV_none_of_nonvalue (d : Char) (z : List Char) (hd : kvValueChar d = false) :
    tryKV (d :: z) = none := by
  have h2 : reIsSpace d = true ∨ d = '"' ∨ d = '\'' := by
    by_cases hws : reIsSpace d = true
    · exact Or.inl hws
    · by_cases hq1 : d = '"'
      · exact Or.inr (Or.inl hq1)
      · by_cases hq2 : d = '\''
        · exact Or.inr (Or.inr hq2)
        · exfalso
          simp [kvValueChar, hq1, hq2] at hd
          exact hws hd
  rcases h2 with h2 | h2 | h2
  · have h3 : (((d = ' ' ∨ d = '\t') ∨ d = '\n') ∨ d = '\x0c') ∨ d = '\r' := by
      simpa [reIsSpace] using h2
    rcases h3 with (((h3 | h3) | h3) | h3) | h3 <;> rw [h3] <;> rfl
  · rw [h2]; rfl
  · rw [h2]; rfl

lemma startsWithCI_append_split (p₁ p₂ t₁ t₂ : List Char) (hlen : p₁.length = t₁.length)
    (h : startsWithCI (p₁ ++ p₂) (t₁ ++ t₂) = true) :
    startsWithCI p₁ t₁ = true ∧ startsWithCI p₂ t₂ = true := by
  induction p₁ generalizing t₁ with
  | nil =>
    cases t₁ with
    | nil => exact ⟨rfl, by simpa using h⟩
    | cons c t' => simp at hlen
  | cons a p' ih =>
    cases t₁ with
    | nil => simp at hlen
    | cons c t' =>
      simp only [List.cons_append, startsWithCI, Bool.and_eq_true, decide_eq_true_eq] at h
      obtain ⟨h1, h2⟩ := h
      obtain ⟨h3, h4⟩ := ih t' (by simpa using hlen) h2
      refine ⟨?_, h4⟩
      simp only [startsWithCI, Bool.and_eq_true, decide_eq_true_eq]
      exact ⟨h1, h3⟩

/-- Walking an in-progress keyword comparison across the kv pass: either the
keyword region lies in copied runes (and transfers, with the tail relation),
or it ends inside a replacement block and the next output rune can be
neither whitespace nor a separator. -/
lemma kv_kw_walk : ∀ (kwr : List Char) (kwfull : List Char) (d : Nat),
    kwfull ∈ kvKeywords → 1 ≤ d → kwr = kwfull.drop d →
    ∀ a b, Rw tryKV a b → startsWithCI kwr b = true →
    (startsWithCI kwr a = true ∧ a.take kwr.length = b.take kwr.length ∧
      Rw tryKV (a.drop kwr.length) (b.drop kwr.length)) ∨
    (startsWithCI kwr a = true ∧
      ∃ ch z, b.drop kwr.length = ch :: z ∧ reIsSpace ch = false ∧
        ch ≠ ':' ∧ ch ≠ '=') := by
  intro kwr
  induction kwr with
  | nil =>
    intro kwfull d _ _ _ a b hrw _
    exact Or.inl ⟨rfl, rfl, hrw⟩
  | cons k kwr' ih =>
    intro kwfull d hkfull hd hkr a b hrw hswb
    cases hrw with
    | nil => simp [startsWithCI] at hswb
    | copy hnone hrw₂ =>
      rename_i c a' b'
      simp only [startsWithCI, Bool.and_eq_true, decide_eq_true_eq] at hswb
      obtain ⟨hkc, hswb'⟩ := hswb
      have hkr' : kwr' = kwfull.drop (d + 1) := by
        have h1 : (kwfull.drop d).drop 1 = kwfull.drop (d + 1) := List.drop_drop 1 d kwfull
        rw [← hkr] at h1
        exact h1
      rcases ih kwfull (d + 1) hkfull (by omega) hkr' a' b' hrw₂ hswb' with
        ⟨hswa', htk, hrel⟩ | ⟨hswa', ch, z, hdp, f1, f2, f3⟩
      · left
        refine ⟨?_, ?_, ?_⟩
        · simp only [startsWithCI, Bool.and_eq_true, decide_eq_true_eq]
          exact ⟨hkc, hswa'⟩
        · simp only [List.length_cons, List.take_succ_cons, htk]
        · simp only [List.length_cons, List.drop_succ_cons]
          exact hrel
      · right
        refine ⟨?_, ch, z, ?_, f1, f2, f3⟩
        · simp only [startsWithCI, Bool.and_eq_true, decide_eq_true_eq]
          exact ⟨hkc, hswa'⟩
        · simp only [List.length_cons, List.drop_succ_cons]
          exact hdp
    | repl hm hne hrw₂ =>
      rename_i o₃ r nn
      obtain ⟨kw₂, sep, rest3, hfind, hrest, hsep, hval, hr, hnn⟩ := tryKV_decomp a r nn hm
      obtain ⟨hk2mem, hk2sw⟩ := findKw_some kvKeywords a kw₂ hfind
      have hlenk2 : kw₂.length ≤ a.length := startsWithCI_length kw₂ a hk2sw
      have hkT2len : (a.take kw₂.length).length = kw₂.length := by
        simp only [List.length_take]
        omega
      have hmapT : (a.take kw₂.length).map Char.toLower = kw₂ := by
        rw [startsWithCI_lower_take kw₂ a hk2sw, kvKeywords_lower_fixed kw₂ hk2mem]
      rw [hr, List.append_assoc] at hswb
      rcases lt_trichotomy (k :: kwr').length kw₂.length with hL | hL | hL
      · right
        constructor
        · rw [startsWithCI_congr (k :: kwr') a
            (a.take kw₂.length ++ ("=[REDACTED]".data ++ o₃)) ?_]
          · exact hswb
          · rw [List.take_append_of_le_length (by omega)]
            rw [List.take_take, min_eq_left (by omega)]
        · have hd2 : (a.take kw₂.length).drop (k :: kwr').length ≠ [] := by
            intro h0
            have h1 := congrArg List.length h0
            simp only [List.length_drop, hkT2len, List.length_nil] at h1
            omega
          cases hdc : (a.take kw₂.length).drop (k :: kwr').length with
          | nil => exact absurd hdc hd2
          | cons ch zz =>
            have hchmem : ch ∈ a.take kw₂.length := by
              have h1 : ch ∈ (a.take kw₂.length).drop (k :: kwr').length := by
                rw [hdc]
                exact List.mem_cons_self _ _
              exact List.mem_of_mem_drop h1
            have hlowmem : ch.toLower ∈ kw₂ := by
              rw [← hmapT]
              exact List.mem_map_of_mem Char.toLower hchmem
            obtain ⟨g1, g2, g3, _, _⟩ := ch_of_ci_kwchar ch ch.toLower rfl
              (kvKeywords_char_facts kw₂ hk2mem ch.toLower hlowmem)
            refine ⟨ch, zz ++ ("=[REDACTED]".data ++ o₃), ?_, g1, g2, g3⟩
            rw [hr, List.append_assoc, List.drop_append_of_le_length (by omega), hdc]
            rfl
      · exfalso
        have htkb : (a.take kw₂.length ++ ("=[REDACTED]".data ++ o₃)).take
            (k :: kwr').length = a.take kw₂.length := by
          rw [List.take_append_of_le_length (by omega)]
          rw [List.take_take, hL, min_self]
        have hlow1 := startsWithCI_lower_take (k :: kwr') _ hswb
        rw [htkb] at hlow1
        have hkwrfix : (k :: kwr').map Char.toLower = k :: kwr' := by
          rw [hkr, List.map_drop, kvKeywords_lower_fixed kwfull hkfull]
        rw [hmapT, hkwrfix] at hlow1
        have hdlt : d < kwfull.length := by
          by_contra h0
          push_neg at h0
          rw [List.drop_eq_nil_of_le h0] at hkr
          simp at hkr
        exact kvKeywords_no_proper_suffix kwfull hkfull kw₂ hk2mem d hdlt hd
          (by rw [← hkr, hlow1])
      · exfalso
        have hsp : k :: kwr' = (k :: kwr').take kw₂.length ++ (k :: kwr').drop kw₂.length :=
          (List.take_append_drop _ _).symm
        rw [hsp] at hswb
        obtain ⟨_, hsw2⟩ := startsWithCI_append_split ((k :: kwr').take kw₂.length)
          ((k :: kwr').drop kw₂.length) (a.take kw₂.length) ("=[REDACTED]".data ++ o₃)
          (by simp only [List.length_take, hkT2len]; omega) hswb
        cases hdk : (k :: kwr').drop kw₂.length with
        | nil =>
          have h1 := congrArg List.length hdk
          simp only [List.length_drop, List.length_nil] at h1
          omega
        | cons kx kr =>
          rw [hdk] at hsw2
          obtain ⟨ch, z, hcz, hci⟩ := startsWithCI_cons_inv kx kr _ hsw2
          have hch : ch = '=' := by
            have h0 : "=[REDACTED]".data ++ o₃ = '=' :: ("[REDACTED]".data ++ o₃) := rfl
            rw [h0] at hcz
            exact ((List.cons_eq_cons.mp hcz).1).symm
          rw [hch, show ('=').toLower = '=' from by decide] at hci
          have hkx : kx ∈ kwfull := by
            have h1 : kx ∈ (k :: kwr').drop kw₂.length := by
              rw [hdk]
              exact List.mem_cons_self _ _
            have h2 : kx ∈ k :: kwr' := List.mem_of_mem_drop h1
            rw [hkr] at h2
            exact List.mem_of_mem_drop h2
          have hfacts := kvKeywords_char_facts kwfull hkfull kx hkx
          rw [hfacts.1] at hci
          exact hfacts.2.2.2.1 hci

/-- A keyword comparison cannot continue past its region into whitespace
or a separator rune. -/
lemma kw_not_into_wssep (w' : List Char) (hw' : w' ∈ kvKeywords) (L : Nat)
    (hlen : L < w'.length) (t₁ t₂ : List Char) (hlent : t₁.length = L)
    (hsw : startsWithCI w' (t₁ ++ t₂) = true)
    (hhead : ∃ e z, t₂ = e :: z ∧ (reIsSpace e = true ∨ e = ':' ∨ e = '=')) : False := by
  obtain ⟨e, z, ht2, he⟩ := hhead
  have hsp : w' = w'.take L ++ w'.drop L := (List.take_append_drop _ _).symm
  rw [hsp] at hsw
  obtain ⟨_, hsw2⟩ := startsWithCI_append_split (w'.take L) (w'.drop L) t₁ t₂
    (by simp only [List.length_take]; omega) hsw
  cases hdk : w'.drop L with
  | nil =>
    have h1 := congrArg List.length hdk
    simp only [List.length_drop, List.length_nil] at h1
    omega
  | cons kx kr =>
    rw [hdk, ht2] at hsw2
    obtain ⟨ch, z2, hcz, hci⟩ := startsWithCI_cons_inv kx kr _ hsw2
    obtain ⟨hc1, _⟩ := List.cons_eq_cons.mp hcz
    rw [← hc1] at hci
    have hkx : kx ∈ w' := by
      have h1 : kx ∈ w'.drop L := by
        rw [hdk]
        exact List.mem_cons_self _ _
      exact List.mem_of_mem_drop h1
    have hfacts := kvKeywords_char_facts w' hw' kx hkx
    rw [hfacts.1] at hci
    rcases he with he | he | he
    · have he2 : e.toLower = e := toLower_of_space e he
      rw [he2] at hci
      rw [hci] at hfacts
      rw [hfacts.2.1] at he
      exact absurd he (by simp)
    · rw [he, show (':').toLower = ':' from by decide] at hci
      exact hfacts.2.2.1 hci
    · rw [he, show ('=').toLower = '=' from by decide] at hci
      exact hfacts.2.2.2.1 hci

/-- The rune after a maximal `takeWhile` run fails the predicate. -/
lemma takeWhile_drop_head_false (p : Char → Bool) :
    ∀ (X : List Char) (d : Char) (z : List Char),
      X.drop ((X.takeWhile p).length) = d :: z → p d = false := by
  intro X
  induction X with
  | nil => intro d z h; simp at h
  | cons x X' ih =>
    intro d z h
    by_cases hx : p x = true
    · rw [show (x :: X').takeWhile p = x :: X'.takeWhile p from by
        simp [List.takeWhile_cons, hx]] at h
      simp only [List.length_cons, List.drop_succ_cons] at h
      exact ih d z h
    · rw [show (x :: X').takeWhile p = [] from by
        simp [List.takeWhile_cons, hx]] at h
      simp only [List.length_nil, List.drop_zero] at h
      obtain ⟨h1, _⟩ := List.cons_eq_cons.mp h
      rw [← h1]
      simpa using hx

lemma findKw_none_of_all (ks : List (List Char)) (l : List Char)
    (hall : ∀ k ∈ ks, startsWithCI k l = false) : findKw ks l = none := by
  induction ks with
  | nil => rfl
  | cons k0 ks' ih =>
    unfold findKw
    rw [if_neg (by rw [hall k0 (List.mem_cons_self _ _)]; simp)]
    exact ih (fun k hk => hall k (List.mem_cons_of_mem _ hk))

/-- No kv match starts inside a strict suffix of the `=[REDACTED]` text. -/
lemma redacted_sfx_none (rs : List Char) (hs : rs <:+ "=[REDACTED]".data)
    (hne : rs ≠ []) (z : List Char) : tryKV (rs ++ z) = none := by
  have hmem : rs ∈ ("=[REDACTED]".data).tails := by
    rw [List.mem_tails]
    exact hs
  fin_cases hmem
  · rfl
  · rfl
  · rfl
  · rfl
  · rfl
  · rfl
  · rfl
  · rfl
  · rfl
  · rfl
  · rfl
  · exact absurd rfl hne

/-- Keyword regions pull back unchanged through a pass whose replacements
start with `[`. -/
lemma kv_kw_walk_bracket (tryM : List Char → Option (List Char × Nat))
    (hrepl : ∀ l r n, tryM l = some (r, n) → ∃ r', r = '[' :: r')
    (kw : List Char) (hkmem : kw ∈ kvKeywords) :
    ∀ a b, Rw tryM a b → startsWithCI kw b = true →
    startsWithCI kw a = true ∧ a.take kw.length = b.take kw.length ∧
    Rw tryM (a.drop kw.length) (b.drop kw.length) := by
  intro a b hrw hswb
  have hlen : kw.length ≤ b.length := startsWithCI_length kw b hswb
  have htlen : (b.take kw.length).length = kw.length := by
    simp only [List.length_take]
    omega
  have hmapb : (b.take kw.length).map Char.toLower = kw := by
    rw [startsWithCI_lower_take kw b hswb, kvKeywords_lower_fixed kw hkmem]
  have hnb : '[' ∉ b.take kw.length := by
    intro hbm
    have hlowmem : ('[').toLower ∈ kw := by
      rw [← hmapb]
      exact List.mem_map_of_mem Char.toLower hbm
    rw [show ('[').toLower = '[' from by decide] at hlowmem
    have hfacts := kvKeywords_char_facts kw hkmem '[' hlowmem
    exact hfacts.2.2.2.2.1 rfl
  obtain ⟨hpre, hrel⟩ := rw_prefix_pullback tryM hrepl (b.take kw.length) a b hrw
    (List.take_prefix _ _) hnb
  have htka : a.take kw.length = b.take kw.length := by
    have h0 := prefix_eq_take (b.take kw.length) a hpre
    rw [htlen] at h0
    exact h0
  refine ⟨?_, htka, ?_⟩
  · rw [startsWithCI_congr kw a b htka]
    exact hswb
  · rw [← htlen]
    exact hrel

/-- Assemble an input kv match from walked-back components. -/
lemma kv_assemble (tryM : List Char → Option (List Char × Nat)) (hstep : HStep tryM)
    (c : Char) (a' b' : List Char) (k0 : Char) (kwtail : List Char)
    (hkmem : (k0 :: kwtail) ∈ kvKeywords)
    (sep : Char) (rest3 : List Char) (hsepv : sep = ':' ∨ sep = '=')
    (hswa : startsWithCI (k0 :: kwtail) (c :: a') = true)
    (hrel : Rw tryM (a'.drop kwtail.length) (b'.drop kwtail.length))
    (hrest : (b'.drop kwtail.length).drop
        (((b'.drop kwtail.length).takeWhile reIsSpace).length) = sep :: rest3)
    (hval : 0 < ((rest3.drop
        ((rest3.takeWhile reIsSpace).length)).takeWhile kvValueChar).length) :
    ∃ r₂ n₂, tryKV (c :: a') = some (r₂, n₂) := by
  obtain ⟨hwseq, hrel2⟩ := kv_ws_walk tryM hstep _ _ hrel
  obtain ⟨a₂, hA2, hrel3⟩ := kv_sep_walk tryM hstep _ _ hrel2 sep rest3 hrest hsepv
  obtain ⟨hwseq2, hrel4⟩ := kv_ws_walk tryM hstep _ _ hrel3
  cases hv0 : rest3.drop ((rest3.takeWhile reIsSpace).length) with
  | nil =>
    rw [hv0] at hval
    simp at hval
  | cons v rest4 =>
    have hvv : kvValueChar v = true := by
      by_contra hvv
      rw [hv0] at hval
      simp [List.takeWhile_cons, hvv] at hval
    obtain ⟨va, aa, hva, hvav⟩ := kv_val_walk tryM hstep _ _ hrel4 v rest4 hv0 hvv
    have hA2' : (a'.drop kwtail.length).drop
        (((a'.drop kwtail.length).takeWhile reIsSpace).length) = sep :: a₂ := by
      rw [hwseq]
      exact hA2
    have hvala : 0 < ((a₂.drop
        ((a₂.takeWhile reIsSpace).length)).takeWhile kvValueChar).length := by
      rw [hwseq2, hva]
      simp [List.takeWhile_cons, hvav]
    have hlowa : ((c :: a').take (k0 :: kwtail).length).map Char.toLower
        = k0 :: kwtail := by
      rw [startsWithCI_lower_take _ _ hswa, kvKeywords_lower_fixed _ hkmem]
    have hlena : (k0 :: kwtail).length ≤ (c :: a').length :=
      startsWithCI_length _ _ hswa
    have huniq : ∀ w' ∈ kvKeywords, startsWithCI w' (c :: a') = true →
        w' = k0 :: kwtail := by
      intro w' hw'mem hw'sw
      rcases le_or_lt w'.length (k0 :: kwtail).length with hle | hgt
      · have h1 : ((c :: a').take w'.length).map Char.toLower = w' := by
          rw [startsWithCI_lower_take _ _ hw'sw, kvKeywords_lower_fixed _ hw'mem]
        have h2 : (c :: a').take w'.length
            = ((c :: a').take (k0 :: kwtail).length).take w'.length := by
          rw [List.take_take, min_eq_left hle]
        have h3 : (k0 :: kwtail).take w'.length = w' := by
          rw [← hlowa, ← List.map_take, ← h2, h1]
        exact kvKeywords_prefix_eq w' hw'mem (k0 :: kwtail) hkmem h3.symm
      · exfalso
        have hsplit : c :: a' = (c :: a').take (k0 :: kwtail).length
            ++ (a'.drop kwtail.length) := by
          exact (List.take_append_drop (k0 :: kwtail).length (c :: a')).symm
        rw [hsplit] at hw'sw
        refine kw_not_into_wssep w' hw'mem (k0 :: kwtail).length hgt _ _ ?_ hw'sw ?_
        · simp only [List.length_take]
          omega
        · set A1 := a'.drop kwtail.length with hA1def
          set run1 := A1.takeWhile reIsSpace with hrun1def
          obtain ⟨qq, hqq⟩ := List.takeWhile_prefix (p := reIsSpace) (l := A1)
          rw [← hrun1def] at hqq
          have hq3 : A1.drop run1.length = qq := by
            rw [← hqq]
            exact List.drop_left _ _
          rw [hq3] at hA2'
          cases hrun : run1 with
          | nil =>
            refine ⟨sep, a₂, ?_, ?_⟩
            · rw [← hqq, hrun, hA2', List.nil_append]
            · rcases hsepv with h | h
              · exact Or.inr (Or.inl h)
              · exact Or.inr (Or.inr h)
          | cons w0 ws' =>
            refine ⟨w0, ws' ++ qq, ?_, ?_⟩
            · rw [← hqq, hrun]
              rfl
            · left
              have hw0 : w0 ∈ A1.takeWhile reIsSpace := by
                rw [← hrun1def, hrun]
                exact List.mem_cons_self _ _
              exact List.mem_takeWhile_imp hw0
    have hfka : findKw kvKeywords (c :: a') = some (k0 :: kwtail) :=
      findKw_first_gen kvKeywords (c :: a') (k0 :: kwtail) hkmem hswa huniq
    exact ⟨_, _, tryKV_build (c :: a') (k0 :: kwtail) sep a₂ hfka hA2' hsepv hvala⟩

/-- A kv match on the output of the kv pass pulls back to the input. -/
lemma kv_transfer : ∀ a b, Rw tryKV a b → ∀ rx nx, tryKV b = some (rx, nx) →
    ∃ r₂ n₂, tryKV a = some (r₂, n₂) := by
  intro a b hrw rx nx hm
  cases hrw with
  | nil =>
    rw [show tryKV ([] : List Char) = none from rfl] at hm
    simp at hm
  | repl hm2 hne hrw₂ => exact ⟨_, _, hm2⟩
  | copy hnone hrw₂ =>
    rename_i c a' b'
    obtain ⟨kw, sep, rest3, hfind, hrest, hsepv, hval, hr, hn⟩ :=
      tryKV_decomp (c :: b') rx nx hm
    obtain ⟨hkmem, hksw⟩ := findKw_some kvKeywords (c :: b') kw hfind
    have hkne := kvKeywords_ne_nil kw hkmem
    cases hkw : kw with
    | nil => exact absurd hkw hkne
    | cons k0 kwtail =>
      subst hkw
      simp only [startsWithCI, Bool.and_eq_true, decide_eq_true_eq] at hksw
      obtain ⟨hk0c, hswtail⟩ := hksw
      rcases kv_kw_walk kwtail (k0 :: kwtail) 1 hkmem le_rfl rfl a' b' hrw₂ hswtail with
        ⟨hswa', htk, hrel⟩ | ⟨hswa', ch, z, hdp, f1, f2, f3⟩
      · apply kv_assemble tryKV hstep_kv c a' b' k0 kwtail hkmem sep rest3 hsepv
          ?_ hrel ?_ hval
        · simp only [startsWithCI, Bool.and_eq_true, decide_eq_true_eq]
          exact ⟨hk0c, hswa'⟩
        · exact hrest
      · exfalso
        have hD : (c :: b').drop (k0 :: kwtail).length = ch :: z := hdp
        rw [hD] at hrest
        have hws1 : (ch :: z).takeWhile reIsSpace = [] := by
          simp [List.takeWhile_cons, f1]
        rw [hws1] at hrest
        simp only [List.length_nil, List.drop_zero] at hrest
        obtain ⟨h1, _⟩ := List.cons_eq_cons.mp hrest
        rcases hsepv with h | h <;> rw [h] at h1
        · exact f2 h1
        · exact f3 h1

/-- At a freshly written block `kwText=[REDACTED]` (followed by nothing or a
non-value rune), the kv matcher matches exactly the block again. -/
lemma tryKV_at_block (kw kwT : List Char) (hkmem : kw ∈ kvKeywords)
    (hlen : kwT.length = kw.length) (hmap : kwT.map Char.toLower = kw)
    (o₀ : List Char) (ho : o₀ = [] ∨ ∃ d z₀, o₀ = d :: z₀ ∧ kvValueChar d = false) :
    tryKV ((kwT ++ "=[REDACTED]".data) ++ o₀)
      = some (kwT ++ "=[REDACTED]".data, kw.length + 11) := by
  have hT2 : (kwT ++ "=[REDACTED]".data) ++ o₀ = kwT ++ ("=[REDACTED]".data ++ o₀) :=
    List.append_assoc _ _ _
  have htake : ((kwT ++ "=[REDACTED]".data) ++ o₀).take kw.length = kwT := by
    rw [hT2, List.take_left' hlen]
  have hdropkw : ((kwT ++ "=[REDACTED]".data) ++ o₀).drop kw.length
      = "=[REDACTED]".data ++ o₀ := by
    rw [hT2, List.drop_left' hlen]
  have hsw : startsWithCI kw ((kwT ++ "=[REDACTED]".data) ++ o₀) = true := by
    apply startsWithCI_of_lower_take
    · rw [hT2]
      simp only [List.length_append]
      omega
    · rw [htake, hmap, kvKeywords_lower_fixed kw hkmem]
  have huniq : ∀ w' ∈ kvKeywords,
      startsWithCI w' ((kwT ++ "=[REDACTED]".data) ++ o₀) = true → w' = kw := by
    intro w' hw'mem hw'sw
    rcases le_or_lt w'.length kw.length with hle | hgt
    · have h1 : (((kwT ++ "=[REDACTED]".data) ++ o₀).take w'.length).map Char.toLower
          = w' := by
        rw [startsWithCI_lower_take _ _ hw'sw, kvKeywords_lower_fixed _ hw'mem]
      have h2 : ((kwT ++ "=[REDACTED]".data) ++ o₀).take w'.length
          = kwT.take w'.length := by
        rw [hT2, List.take_append_of_le_length (by omega)]
      have h3 : kw.take w'.length = w' := by
        rw [← hmap, ← List.map_take, ← h2, h1]
      exact kvKeywords_prefix_eq w' hw'mem kw hkmem h3.symm
    · exfalso
      rw [hT2] at hw'sw
      refine kw_not_into_wssep w' hw'mem kw.length hgt kwT ("=[REDACTED]".data ++ o₀)
        hlen hw'sw ?_
      exact ⟨'=', "[REDACTED]".data ++ o₀, rfl, Or.inr (Or.inr rfl)⟩
  have hfk : findKw kvKeywords ((kwT ++ "=[REDACTED]".data) ++ o₀) = some kw :=
    findKw_first_gen _ _ _ hkmem hsw huniq
  have hws1 : (((kwT ++ "=[REDACTED]".data) ++ o₀).drop kw.length).takeWhile reIsSpace
      = [] := by
    rw [hdropkw]
    rfl
  have hrest : (((kwT ++ "=[REDACTED]".data) ++ o₀).drop kw.length).drop
      (((((kwT ++ "=[REDACTED]".data) ++ o₀).drop kw.length).takeWhile
        reIsSpace).length)
      = '=' :: ("[REDACTED]".data ++ o₀) := by
    rw [hws1, hdropkw]
    simp only [List.length_nil, List.drop_zero]
    rfl
  have hws2 : (("[REDACTED]".data ++ o₀).takeWhile reIsSpace) = [] := rfl
  have hvalue : (("[REDACTED]".data ++ o₀).drop
      ((("[REDACTED]".data ++ o₀).takeWhile reIsSpace).length)).takeWhile kvValueChar
      = "[REDACTED]".data := by
    rw [hws2]
    simp only [List.length_nil, List.drop_zero]
    rw [takeWhile_append_all kvValueChar "[REDACTED]".data o₀ (by decide)]
    have ho2 : o₀.takeWhile kvValueChar = [] := by
      rcases ho with ho | ⟨d, z₀, hdz, hdv⟩
      · rw [ho]
        rfl
      · rw [hdz]
        simp [List.takeWhile_cons, hdv]
    rw [ho2, List.append_nil]
  have hbuild := tryKV_build ((kwT ++ "=[REDACTED]".data) ++ o₀) kw '='
    ("[REDACTED]".data ++ o₀) hfk hrest (Or.inr rfl) (by rw [hvalue]; decide)
  rw [htake, hws1, hvalue] at hbuild
  rw [hws2] at hbuild
  have h10 : ("[REDACTED]".data).length = 10 := rfl
  rw [h10] at hbuild
  simp only [List.length_nil] at hbuild
  rw [show kw.length + 0 + 1 + 0 + 10 = kw.length + 11 from by omega] at hbuild
  exact hbuild


lemma KVFix_restrict {l : List Char} (h : KVFix l) {l₂ : List Char} (hs : l₂ <:+ l) :
    KVFix l₂ :=
  fun t ht => h t (ht.trans hs)

/-- Every kv match in the output of the kv pass is a fixed point. -/
lemma KVFix_of_rw_self : ∀ l o, Rw tryKV l o → KVFix o := by
  intro l o hrw
  induction hrw with
  | nil =>
    intro t ht r n hm
    rw [List.suffix_nil.mp ht, show tryKV ([] : List Char) = none from rfl] at hm
    exact absurd hm (by simp)
  | copy hnone hrw₂ ih =>
    rename_i c l' o'
    intro t ht rx nx hmx
    rcases List.suffix_cons_iff.mp ht with ht | ht
    · subst ht
      obtain ⟨r₂, n₂, h₂⟩ := kv_transfer (c :: l') (c :: o') (Rw.copy hnone hrw₂) rx nx hmx
      rw [hnone] at h₂
      exact absurd h₂ (by simp)
    · exact ih t ht rx nx hmx
  | repl hm hne hrw₂ ih =>
    rename_i l₀ o₀ rr nn
    intro t ht rx nx hmx
    rcases suffix_append_cases t rr o₀ ht with ht | ⟨rs, h1, h2, h3⟩
    · exact ih t ht rx nx hmx
    · subst h3
      obtain ⟨kw, sep, rest3, hfind, hrest2, hsepv, hval2, hrr, hnn⟩ :=
        tryKV_decomp l₀ rr nn hm
      obtain ⟨hkmem, hswk⟩ := findKw_some kvKeywords l₀ kw hfind
      have hklen : kw.length ≤ l₀.length := startsWithCI_length kw l₀ hswk
      have hkTlen : (l₀.take kw.length).length = kw.length := by
        simp only [List.length_take]
        omega
      have hmapT : (l₀.take kw.length).map Char.toLower = kw := by
        rw [startsWithCI_lower_take kw l₀ hswk, kvKeywords_lower_fixed kw hkmem]
      have hnn1 : 1 ≤ nn := by
        rw [hnn]
        omega
      rw [show max nn 1 = nn from by omega] at hrw₂
      -- locate the rune after the matched value
      have d2' : (l₀.drop kw.length).drop
          ((((l₀.drop kw.length).takeWhile reIsSpace).length) + 1) = rest3 := by
        rw [← List.drop_drop, hrest2]
        rfl
      have d2 : l₀.drop (kw.length +
          ((((l₀.drop kw.length).takeWhile reIsSpace).length) + 1)) = rest3 := by
        rw [← List.drop_drop]
        exact d2'
      have d3 : l₀.drop ((kw.length +
          ((((l₀.drop kw.length).takeWhile reIsSpace).length) + 1)) +
          (rest3.takeWhile reIsSpace).length)
          = rest3.drop ((rest3.takeWhile reIsSpace).length) := by
        rw [← List.drop_drop, d2]
      have d4 : l₀.drop (((kw.length +
          ((((l₀.drop kw.length).takeWhile reIsSpace).length) + 1)) +
          (rest3.takeWhile reIsSpace).length) +
          (((rest3.drop ((rest3.takeWhile reIsSpace).length)).takeWhile
            kvValueChar).length))
          = (rest3.drop ((rest3.takeWhile reIsSpace).length)).drop
            (((rest3.drop ((rest3.takeWhile reIsSpace).length)).takeWhile
              kvValueChar).length) := by
        rw [← List.drop_drop, d3]
      have e0 : l₀.drop nn
          = (rest3.drop ((rest3.takeWhile reIsSpace).length)).drop
            (((rest3.drop ((rest3.takeWhile reIsSpace).length)).takeWhile
              kvValueChar).length) := by
        rw [hnn, show kw.length + (((l₀.drop kw.length).takeWhile reIsSpace).length) +
          1 + (rest3.takeWhile reIsSpace).length +
          (((rest3.drop ((rest3.takeWhile reIsSpace).length)).takeWhile
            kvValueChar).length)
          = ((kw.length + ((((l₀.drop kw.length).takeWhile reIsSpace).length) + 1)) +
            (rest3.takeWhile reIsSpace).length) +
            (((rest3.drop ((rest3.takeWhile reIsSpace).length)).takeWhile
              kvValueChar).length) from by omega]
        exact d4
      have ho : o₀ = [] ∨ ∃ d z₀, o₀ = d :: z₀ ∧ kvValueChar d = false := by
        rw [e0] at hrw₂
        cases hAV : (rest3.drop ((rest3.takeWhile reIsSpace).length)).drop
            (((rest3.drop ((rest3.takeWhile reIsSpace).length)).takeWhile
              kvValueChar).length) with
        | nil =>
          rw [hAV] at hrw₂
          exact Or.inl (Rw_nil_inv tryKV o₀ hrw₂)
        | cons d z₀ =>
          have hdv : kvValueChar d = false :=
            takeWhile_drop_head_false kvValueChar
              (rest3.drop ((rest3.takeWhile reIsSpace).length)) d z₀ hAV
          rw [hAV] at hrw₂
          right
          cases hrw₂ with
          | copy hno hrw₃ =>
            rename_i o₀'
            exact ⟨d, o₀', rfl, hdv⟩
          | repl hm3 hne3 hrw₃ =>
            rw [tryKV_none_of_nonvalue d z₀ hdv] at hm3
            exact absurd hm3 (by simp)
      rw [hrr] at h1
      rcases suffix_append_cases rs (l₀.take kw.length) "=[REDACTED]".data h1 with
        hcase | ⟨ks, hks1, hks2, hks3⟩
      · have h0 := redacted_sfx_none rs hcase h2 o₀
        rw [h0] at hmx
        exact absurd hmx (by simp)
      · subst hks3
        by_cases hkfull : ks = l₀.take kw.length
        · subst hkfull
          have hblock := tryKV_at_block kw (l₀.take kw.length) hkmem hkTlen hmapT o₀ ho
          rw [hblock] at hmx
          obtain ⟨ha, hb⟩ := Prod.mk.injEq .. ▸ (Option.some.injEq _ _).mp hmx
          constructor
          · rw [← ha, ← hb, List.take_left' ?_]
            case _ =>
              simp only [List.length_append, hkTlen]
              rfl
          · rw [← hb]
            omega
        · obtain ⟨pre, hpre⟩ := hks1
          have hprene : pre ≠ [] := by
            intro h0
            rw [h0, List.nil_append] at hpre
            exact hkfull hpre
          have hpres : 1 ≤ pre.length := by
            cases hp : pre with
            | nil => exact absurd hp hprene
            | cons x xs => simp [hp]
          have hkslen : ks.length + pre.length = kw.length := by
            have h4 := congrArg List.length hpre
            simp only [List.length_append, hkTlen] at h4
            omega
          have hksne : 1 ≤ ks.length := by
            cases hk : ks with
            | nil => exact absurd hk hks2
            | cons x xs => simp [hk]
          have hlowks : ks.map Char.toLower = kw.drop pre.length := by
            have h4 : (pre.map Char.toLower ++ ks.map Char.toLower) = kw := by
              rw [← List.map_append, hpre, hmapT]
            have h5 : (pre.map Char.toLower ++ ks.map Char.toLower).drop pre.length
                = ks.map Char.toLower :=
              List.drop_left' (by rw [List.length_map])
            rw [← h4, h5]
          have hfnone : findKw kvKeywords ((ks ++ "=[REDACTED]".data) ++ o₀)
              = none := by
            apply findKw_none_of_all
            intro w' hw'
            cases hb : startsWithCI w' ((ks ++ "=[REDACTED]".data) ++ o₀) with
            | false => rfl
            | true =>
              exfalso
              rcases le_or_lt w'.length ks.length with hle | hgt
              · have h1' : (((ks ++ "=[REDACTED]".data) ++ o₀).take w'.length).map
                    Char.toLower = w' := by
                  rw [startsWithCI_lower_take _ _ hb, kvKeywords_lower_fixed _ hw']
                have h2' : ((ks ++ "=[REDACTED]".data) ++ o₀).take w'.length
                    = ks.take w'.length := by
                  rw [List.append_assoc, List.take_append_of_le_length hle]
                have h3' : w' = (kw.drop pre.length).take w'.length := by
                  rw [← hlowks, ← List.map_take, ← h2', h1']
                exact kvKeywords_no_interior_part kw hkmem pre.length
                  (by omega) hpres w' hw' h3'
              · rw [List.append_assoc] at hb
                refine kw_not_into_wssep w' hw' ks.length hgt ks
                  ("=[REDACTED]".data ++ o₀) rfl hb ?_
                exact ⟨'=', "[REDACTED]".data ++ o₀, rfl, Or.inr (Or.inr rfl)⟩
          have h0 : tryKV ((ks ++ "=[REDACTED]".data) ++ o₀) = none := by
            unfold tryKV
            rw [hfnone]
          rw [h0] at hmx
          exact absurd hmx (by simp)

/-- Two keywords ci-matching the same text are equal. -/
lemma kv_kw_unique (t : List Char) (w₁ w₂ : List Char) (h₁ : w₁ ∈ kvKeywords)
    (h₂ : w₂ ∈ kvKeywords) (hs₁ : startsWithCI w₁ t = true)
    (hs₂ : startsWithCI w₂ t = true) : w₁ = w₂ := by
  have key : ∀ u₁ u₂ : List Char, u₁ ∈ kvKeywords → u₂ ∈ kvKeywords →
      startsWithCI u₁ t = true → startsWithCI u₂ t = true →
      u₁.length ≤ u₂.length → u₁ = u₂ := by
    intro u₁ u₂ m₁ m₂ s₁ s₂ hle
    have e₁ : (t.take u₁.length).map Char.toLower = u₁ := by
      rw [startsWithCI_lower_take _ _ s₁, kvKeywords_lower_fixed _ m₁]
    have e₂ : (t.take u₂.length).map Char.toLower = u₂ := by
      rw [startsWithCI_lower_take _ _ s₂, kvKeywords_lower_fixed _ m₂]
    have e₃ : t.take u₁.length = (t.take u₂.length).take u₁.length := by
      rw [List.take_take, min_eq_left hle]
    have e₄ : u₂.take u₁.length = u₁ := by
      rw [← e₂, ← List.map_take, ← e₃, e₁]
    exact kvKeywords_prefix_eq u₁ m₁ u₂ m₂ e₄.symm
  rcases le_total w₁.length w₂.length with hle | hle
  · exact key w₁ w₂ h₁ h₂ hs₁ hs₂ hle
  · exact (key w₂ w₁ h₂ h₁ hs₂ hs₁ hle).symm

/-- Kv fixed-points are preserved by the bracket-replacement passes. -/
lemma KVFix_of_rw_preserved (tryM : List Char → Option (List Char × Nat))
    (hrepl : ∀ l r n, tryM l = some (r, n) → ∃ r', r = '[' :: r')
    (hstep : HStep tryM)
    (hrednones : ∀ i z, i < 10 → tryM ("[REDACTED]".data.drop i ++ z) = none)
    (hsafe : ∀ d z, kvValueChar d = false → tryM (d :: z) = none)
    (hcross : ∀ l r n, tryM l = some (r, n) → ∀ rs z, rs <:+ r → rs ≠ [] →
      tryKV (rs ++ z) = none) :
    ∀ l o, Rw tryM l o → KVFix l → KVFix o := by
  intro l o hrw
  induction hrw with
  | nil => exact fun h => h
  | repl hm hne hrw₂ ih =>
    rename_i l₀ o₀ rr nn
    intro hfree t ht rx nx hmx
    rcases suffix_append_cases t rr o₀ ht with ht | ⟨rs, h1, h2, h3⟩
    · exact ih (KVFix_restrict hfree (List.drop_suffix _ _)) t ht rx nx hmx
    · subst h3
      rw [hcross l₀ rr nn hm rs o₀ h1 h2] at hmx
      exact absurd hmx (by simp)
  | copy hnone hrw₂ ih =>
    rename_i c l' o'
    intro hfree t ht rx nx hmx
    rcases List.suffix_cons_iff.mp ht with ht | ht
    · subst ht
      obtain ⟨kw, sep, rest3, hfind, hrest, hsepv, hval, hrx, hnx⟩ :=
        tryKV_decomp (c :: o') rx nx hmx
      obtain ⟨hkmem, hksw⟩ := findKw_some kvKeywords (c :: o') kw hfind
      have hkne := kvKeywords_ne_nil kw hkmem
      cases hkw : kw with
      | nil => exact absurd hkw hkne
      | cons k0 kwtail =>
      subst hkw
      obtain ⟨hswa, htkeq, hrel⟩ := kv_kw_walk_bracket tryM hrepl (k0 :: kwtail) hkmem
        (c :: l') (c :: o') (Rw.copy hnone hrw₂) hksw
      obtain ⟨hwseq, hrel2⟩ := kv_ws_walk tryM hstep _ _ hrel
      obtain ⟨a₂, hA2, hrel3⟩ := kv_sep_walk tryM hstep _ _ hrel2 sep rest3 hrest hsepv
      obtain ⟨hwseq2, hrel4⟩ := kv_ws_walk tryM hstep _ _ hrel3
      cases hv0 : rest3.drop ((rest3.takeWhile reIsSpace).length) with
      | nil =>
        rw [hv0] at hval
        simp at hval
      | cons v rest4 =>
      have hvv : kvValueChar v = true := by
        by_contra hvv
        rw [hv0] at hval
        simp [List.takeWhile_cons, hvv] at hval
      obtain ⟨va, aa, hva, hvav⟩ := kv_val_walk tryM hstep _ _ hrel4 v rest4 hv0 hvv
      have hA2' : ((c :: l').drop (k0 :: kwtail).length).drop
          ((((c :: l').drop (k0 :: kwtail).length).takeWhile reIsSpace).length)
          = sep :: a₂ := by
        rw [hwseq]
        exact hA2
      have hvala : 0 < ((a₂.drop ((a₂.takeWhile reIsSpace).length)).takeWhile
          kvValueChar).length := by
        rw [hwseq2, hva]
        simp [List.takeWhile_cons, hvav]
      obtain ⟨R, N, hin⟩ := kv_assemble tryM hstep c l' o' k0 kwtail hkmem sep rest3
        hsepv hswa hrel hrest hval
      obtain ⟨hfix1, hfix2⟩ := hfree (c :: l') (List.suffix_refl _) R N hin
      obtain ⟨kwa, sepa, rest3a, hfinda, hresta, hsepva, hvala2, hra, hna⟩ :=
        tryKV_decomp (c :: l') R N hin
      obtain ⟨hkamem, hkasw⟩ := findKw_some kvKeywords (c :: l') kwa hfinda
      have hkaeq : kwa = k0 :: kwtail := kv_kw_unique (c :: l') kwa (k0 :: kwtail)
        hkamem hkmem hkasw hswa
      subst hkaeq
      obtain ⟨hsepid, hrest3id⟩ := List.cons_eq_cons.mp (hA2'.symm.trans hresta)
      subst hsepid
      subst hrest3id
      -- parse the input fixed point
      have hfixeq : (c :: l').take (k0 :: kwtail).length ++ "=[REDACTED]".data
          = (c :: l').take N := by
        rw [← hra]
        exact hfix1
      have htakeN : (c :: l').take N = (c :: l').take (k0 :: kwtail).length ++
          ((c :: l').drop (k0 :: kwtail).length).take
            ((((c :: l').drop (k0 :: kwtail).length).takeWhile reIsSpace).length +
              (1 + ((a₂.takeWhile reIsSpace).length +
              ((a₂.drop ((a₂.takeWhile reIsSpace).length)).takeWhile
                kvValueChar).length))) := by
        rw [hna, show (k0 :: kwtail).length +
          (((c :: l').drop (k0 :: kwtail).length).takeWhile reIsSpace).length +
          1 + (a₂.takeWhile reIsSpace).length +
          ((a₂.drop ((a₂.takeWhile reIsSpace).length)).takeWhile kvValueChar).length
          = (k0 :: kwtail).length +
            ((((c :: l').drop (k0 :: kwtail).length).takeWhile reIsSpace).length +
            (1 + ((a₂.takeWhile reIsSpace).length +
            ((a₂.drop ((a₂.takeWhile reIsSpace).length)).takeWhile
              kvValueChar).length))) from by omega, List.take_add]
      have hred : "=[REDACTED]".data = ((c :: l').drop (k0 :: kwtail).length).take
          ((((c :: l').drop (k0 :: kwtail).length).takeWhile reIsSpace).length +
            (1 + ((a₂.takeWhile reIsSpace).length +
            ((a₂.drop ((a₂.takeWhile reIsSpace).length)).takeWhile
              kvValueChar).length))) :=
        List.append_cancel_left (hfixeq.trans htakeN)
      have htkrun1 : ((c :: l').drop (k0 :: kwtail).length).take
          ((((c :: l').drop (k0 :: kwtail).length).takeWhile reIsSpace).length)
          = ((c :: l').drop (k0 :: kwtail).length).takeWhile reIsSpace :=
        prefix_eq_take _ _ (List.takeWhile_prefix _)
      rw [List.take_add, htkrun1] at hred
      cases hrun1x : ((c :: l').drop (k0 :: kwtail).length).takeWhile reIsSpace with
      | cons w0 ws0 =>
        exfalso
        rw [hrun1x, show "=[REDACTED]".data = '=' :: "[REDACTED]".data from rfl] at hred
        obtain ⟨h7, _⟩ := List.cons_eq_cons.mp hred
        have hw0 : w0 ∈ ((c :: l').drop (k0 :: kwtail).length).takeWhile reIsSpace := by
          rw [hrun1x]
          exact List.mem_cons_self _ _
        have := List.mem_takeWhile_imp hw0
        rw [← h7] at this
        exact absurd this (by decide)
      | nil =>
        have hw1a0 : ((((c :: l').drop (k0 :: kwtail).length).takeWhile
            reIsSpace).length) = 0 := by
          rw [hrun1x]
          rfl
        have hA1eq : (c :: l').drop (k0 :: kwtail).length = sep :: a₂ := by
          have h0 := hA2'
          rw [hw1a0] at h0
          simpa using h0
        rw [hrun1x, List.nil_append] at hred
        simp only [List.length_nil, List.drop_zero] at hred
        rw [hA1eq] at hred
        rw [show 1 + ((a₂.takeWhile reIsSpace).length +
            ((a₂.drop ((a₂.takeWhile reIsSpace).length)).takeWhile
              kvValueChar).length)
          = ((a₂.takeWhile reIsSpace).length +
            ((a₂.drop ((a₂.takeWhile reIsSpace).length)).takeWhile
              kvValueChar).length) + 1 from by omega, List.take_succ_cons] at hred
        have hred4 : '=' :: "[REDACTED]".data = sep :: a₂.take
            ((a₂.takeWhile reIsSpace).length +
             ((a₂.drop ((a₂.takeWhile reIsSpace).length)).takeWhile
               kvValueChar).length) := hred
        obtain ⟨hsepeq, hred3⟩ := List.cons_eq_cons.mp hred4
        cases hrun2x : a₂.takeWhile reIsSpace with
        | cons w0 ws0 =>
          exfalso
          have htkrun2 : a₂.take ((a₂.takeWhile reIsSpace).length)
              = a₂.takeWhile reIsSpace :=
            prefix_eq_take _ _ (List.takeWhile_prefix _)
          rw [List.take_add, htkrun2, hrun2x,
            show "[REDACTED]".data = '[' :: "REDACTED]".data from rfl] at hred3
          obtain ⟨h7, _⟩ := List.cons_eq_cons.mp hred3
          have hw0 : w0 ∈ a₂.takeWhile reIsSpace := by
            rw [hrun2x]
            exact List.mem_cons_self _ _
          have := List.mem_takeWhile_imp hw0
          rw [← h7] at this
          exact absurd this (by decide)
        | nil =>
          have hw2a0 : ((a₂.takeWhile reIsSpace).length) = 0 := by
            rw [hrun2x]
            rfl
          rw [hw2a0] at hred3
          simp only [Nat.zero_add, List.drop_zero] at hred3
          have hred5 : "[REDACTED]".data
              = a₂.take ((a₂.takeWhile kvValueChar).length) := hred3
          have hvaleq : a₂.takeWhile kvValueChar = "[REDACTED]".data := by
            rw [hred5]
            exact (prefix_eq_take _ _ (List.takeWhile_prefix _)).symm
          -- a₂ decomposition and forward copy
          obtain ⟨after, hafter⟩ : "[REDACTED]".data <+: a₂ := by
            rw [← hvaleq]
            exact List.takeWhile_prefix _
          have hrb1 : (((c :: o').drop (k0 :: kwtail).length).takeWhile
              reIsSpace) = [] := by
            rw [← hwseq, hrun1x]
          have hrb2 : rest3.takeWhile reIsSpace = [] := by
            rw [← hwseq2, hrun2x]
          have hrel4' : Rw tryM a₂ rest3 := by
            have h0 := hrel4
            rw [hrb2] at h0
            simpa using h0
          rw [← hafter] at hrel4'
          obtain ⟨hrest3eq, hrelafter⟩ := rw_copy_forward tryM "[REDACTED]".data after
            rest3 hrel4' (fun i hi => hrednones i after (by
              have h0 : ("[REDACTED]".data).length = 10 := rfl
              rw [h0] at hi
              exact hi))
          have h10 : ("[REDACTED]".data).length = 10 := rfl
          rw [h10] at hrest3eq hrelafter
          -- rest of output after the copied value
          have hafterout : rest3.drop 10 = [] ∨
              ∃ d z₀, rest3.drop 10 = d :: z₀ ∧ kvValueChar d = false := by
            cases haf : after with
            | nil =>
              rw [haf] at hrelafter
              exact Or.inl (Rw_nil_inv tryM _ hrelafter)
            | cons d z₀ =>
              have hdv : kvValueChar d = false := by
                refine takeWhile_drop_head_false kvValueChar a₂ d z₀ ?_
                have h0 : a₂.drop ((a₂.takeWhile kvValueChar).length) = after := by
                  rw [hvaleq, ← hafter]
                  exact List.drop_left _ _
                rw [h0, haf]
              rw [haf] at hrelafter
              right
              generalize hG : rest3.drop 10 = G at hrelafter
              cases hrelafter with
              | copy hno hrw₃ =>
                rename_i oz
                exact ⟨d, oz, rfl, hdv⟩
              | repl hm3 hne3 hrw₃ =>
                rw [hsafe d z₀ hdv] at hm3
                exact absurd hm3 (by simp)
          have hvb : rest3.takeWhile kvValueChar = "[REDACTED]".data := by
            rw [hrest3eq, takeWhile_append_all kvValueChar "[REDACTED]".data _
              (by decide)]
            have h0 : (rest3.drop 10).takeWhile kvValueChar = [] := by
              rcases hafterout with h0 | ⟨d, z₀, hdz, hdv⟩
              · rw [h0]
                rfl
              · rw [hdz]
                simp [List.takeWhile_cons, hdv]
            rw [h0, List.append_nil]
          -- final fixedness of the output match
          have hB1 : (c :: o').drop (k0 :: kwtail).length = '=' :: rest3 := by
            have h0 := hrest
            rw [hrb1] at h0
            simp only [List.length_nil, List.drop_zero] at h0
            rw [h0, ← hsepeq]
          have hnx11 : nx = (k0 :: kwtail).length + 11 := by
            rw [hnx, hrb1, hrb2]
            simp only [List.length_nil, List.drop_zero]
            rw [hvb, h10]
          constructor
          · rw [hrx, hnx11, List.take_add, hB1]
            congr 1
            rw [show (11 : Nat) = 10 + 1 from rfl, Nat.add_comm, List.take_succ_cons]
            rw [hrest3eq, List.take_left' ?_]
            case _ => exact h10
          · rw [hnx11]
            omega
    · exact ih (KVFix_restrict hfree (List.suffix_cons c l')) t ht rx nx hmx

/-! ### Pass instances and the idempotence assembly -/

lemma nonvalue_cases (d : Char) (hd : kvValueChar d = false) :
    d = ' ' ∨ d = '\t' ∨ d = '\n' ∨ d = '\x0c' ∨ d = '\r' ∨ d = '"' ∨ d = '\'' := by
  have h2 : reIsSpace d = true ∨ d = '"' ∨ d = '\'' := by
    by_cases hws : reIsSpace d = true
    · exact Or.inl hws
    · by_cases hq1 : d = '"'
      · exact Or.inr (Or.inl hq1)
      · by_cases hq2 : d = '\''
        · exact Or.inr (Or.inr hq2)
        · exfalso
          simp [kvValueChar, hq1, hq2] at hd
          exact hws hd
  rcases h2 with h2 | h2 | h2
  · have h3 : (((d = ' ' ∨ d = '\t') ∨ d = '\n') ∨ d = '\x0c') ∨ d = '\r' := by
      simpa [reIsSpace] using h2
    rcases h3 with (((h3 | h3) | h3) | h3) | h3
    · exact Or.inl h3
    · exact Or.inr (Or.inl h3)
    · exact Or.inr (Or.inr (Or.inl h3))
    · exact Or.inr (Or.inr (Or.inr (Or.inl h3)))
    · exact Or.inr (Or.inr (Or.inr (Or.inr (Or.inl h3))))
  · exact Or.inr (Or.inr (Or.inr (Or.inr (Or.inr (Or.inl h2)))))
  · exact Or.inr (Or.inr (Or.inr (Or.inr (Or.inr (Or.inr h2)))))

lemma hrednones_pk : ∀ i z, i < 10 → tryPK ("[REDACTED]".data.drop i ++ z) = none := by
  intro i z hi
  interval_cases i <;> exact tryPK_none_of_head _ _ (by decide)

lemma hrednones_jwt : ∀ i z, i < 10 → tryJWT ("[REDACTED]".data.drop i ++ z) = none := by
  intro i z hi
  interval_cases i <;> exact tryJWT_none_of_head _ _ (by decide)

lemma hrednones_sk : ∀ i z, i < 10 → trySK ("[REDACTED]".data.drop i ++ z) = none := by
  intro i z hi
  interval_cases i <;> exact trySK_none_of_head _ _ (by decide)

lemma hsafe_pk : ∀ d z, kvValueChar d = false → tryPK (d :: z) = none := by
  intro d z hd
  rcases nonvalue_cases d hd with h | h | h | h | h | h | h <;> rw [h] <;>
    exact tryPK_none_of_head _ _ (by decide)

lemma hsafe_jwt : ∀ d z, kvValueChar d = false → tryJWT (d :: z) = none := by
  intro d z hd
  rcases nonvalue_cases d hd with h | h | h | h | h | h | h <;> rw [h] <;>
    exact tryJWT_none_of_head _ _ (by decide)

lemma hsafe_sk : ∀ d z, kvValueChar d = false → trySK (d :: z) = none := by
  intro d z hd
  rcases nonvalue_cases d hd with h | h | h | h | h | h | h <;> rw [h] <;>
    exact trySK_none_of_head _ _ (by decide)

lemma kv_cross_pk : ∀ l r n, tryPK l = some (r, n) → ∀ rs z, rs <:+ r → rs ≠ [] →
    tryKV (rs ++ z) = none := by
  intro l r n hm rs z hs hne
  rw [tryPK_some_repl l r n hm] at hs
  have hmem : rs ∈ ("[REDACTED PRIVATE KEY]".data).tails := (List.mem_tails _ _).mpr hs
  fin_cases hmem <;> first | rfl | exact absurd rfl hne

lemma kv_cross_jwt : ∀ l r n, tryJWT l = some (r, n) → ∀ rs z, rs <:+ r → rs ≠ [] →
    tryKV (rs ++ z) = none := by
  intro l r n hm rs z hs hne
  rw [tryJWT_some_repl l r n hm] at hs
  have hmem : rs ∈ ("[REDACTED JWT]".data).tails := (List.mem_tails _ _).mpr hs
  fin_cases hmem <;> first | rfl | exact absurd rfl hne

lemma kv_cross_sk : ∀ l r n, trySK l = some (r, n) → ∀ rs z, rs <:+ r → rs ≠ [] →
    tryKV (rs ++ z) = none := by
  intro l r n hm rs z hs hne
  rw [(trySK_some_repl l r n hm).1] at hs
  have hmem : rs ∈ ("[REDACTED KEY]".data).tails := (List.mem_tails _ _).mpr hs
  fin_cases hmem <;> first | rfl | exact absurd rfl hne

lemma redact_core_fixed (x0 : List Char) :
    replaceAll trySK (replaceAll tryJWT (replaceAll tryPK (replaceAll tryKV
      (replaceAll trySK (replaceAll tryJWT (replaceAll tryPK (replaceAll tryKV
        x0)))))))
    = replaceAll trySK (replaceAll tryJWT (replaceAll tryPK (replaceAll tryKV
        x0))) := by
  have h1 : Rw tryKV x0 (replaceAll tryKV x0) := rw_of_replaceAll tryKV x0
  have h2 : Rw tryPK (replaceAll tryKV x0) (replaceAll tryPK (replaceAll tryKV x0)) :=
    rw_of_replaceAll tryPK _
  have h3 : Rw tryJWT (replaceAll tryPK (replaceAll tryKV x0))
      (replaceAll tryJWT (replaceAll tryPK (replaceAll tryKV x0))) :=
    rw_of_replaceAll tryJWT _
  have h4 : Rw trySK (replaceAll tryJWT (replaceAll tryPK (replaceAll tryKV x0)))
      (replaceAll trySK (replaceAll tryJWT (replaceAll tryPK (replaceAll tryKV x0)))) :=
    rw_of_replaceAll trySK _
  have hkv1 := KVFix_of_rw_self _ _ h1
  have hkv2 := KVFix_of_rw_preserved tryPK tryPK_repl_bracket hstep_pk hrednones_pk
    hsafe_pk kv_cross_pk _ _ h2 hkv1
  have hkv3 := KVFix_of_rw_preserved tryJWT tryJWT_repl_bracket hstep_jwt
    hrednones_jwt hsafe_jwt kv_cross_jwt _ _ h3 hkv2
  have hkvR := KVFix_of_rw_preserved trySK trySK_repl_bracket hstep_sk hrednones_sk
    hsafe_sk kv_cross_sk _ _ h4 hkv3
  have hpk2 := PKFree_of_rw_self _ _ h2
  have hpk3 := PKFree_of_rw_preserved tryJWT tryJWT_repl_bracket
    (fun l r n hm => by rw [tryJWT_some_repl l r n hm]; decide) _ _ h3 hpk2
  have hpkR := PKFree_of_rw_preserved trySK trySK_repl_bracket
    (fun l r n hm => by rw [(trySK_some_repl l r n hm).1]; decide) _ _ h4 hpk3
  have hjwt3 := JWTFree_of_rw_self _ _ h3
  have hjwtR := JWTFree_of_rw_preserved trySK trySK_repl_bracket
    (fun l r n hm => by rw [(trySK_some_repl l r n hm).1]; decide) _ _ h4 hjwt3
  have hskR := SKFree_of_rw_self _ _ h4
  rw [replaceAll_eq_self_fix tryKV (replaceAll trySK (replaceAll tryJWT
    (replaceAll tryPK (replaceAll tryKV x0)))).length _ le_rfl hkvR]
  rw [replaceAll_eq_self tryPK _ hpkR]
  rw [replaceAll_eq_self tryJWT _ hjwtR]
  rw [replaceAll_eq_self trySK _ hskR]

/-- C7: redaction is idempotent — for every input string `x`,
`RedactSecrets (RedactSecrets x) = RedactSecrets x`: each of the four
replace-all passes leaves the final output unchanged. -/
theorem redact_idempotent_spec (s : String) :
    RedactSecrets (RedactSecrets s) = RedactSecrets s := by
  unfold RedactSecrets
  rw [show (String.mk (replaceAll trySK (replaceAll tryJWT (replaceAll tryPK
    (replaceAll tryKV s.data))))).data
    = replaceAll trySK (replaceAll tryJWT (replaceAll tryPK
      (replaceAll tryKV s.data))) from rfl]
  rw [redact_core_fixed s.data]
